import Mathlib

/-!
Verification development for the Boop download organizer (`src/app.py`).

The core under verification is the debounced file-stabilization and move
engine: `build_extension_map`, `DownloadHandler.on_created`,
`DownloadHandler.on_modified`, `DownloadHandler.process_pending`,
`DownloadHandler.move_file`, and `Boop.reorganize_all`.

Modelling conventions:
* A filesystem path is its list of components (`PathT := List String`);
  `pathlib.Path` equality on absolute paths is component-wise equality,
  `path.parent` drops the last component, `path.name` is the last component.
* The filesystem is a pair of finite lists: existing regular files and
  existing directories.  `Path.exists()` is membership in either list.
* `time.time()` timestamps are modelled as integers (an exact linearly
  ordered time scale; the debounce logic only subtracts and compares).
* Python `dict` (insertion ordered, update-in-place on existing key) is
  modelled as an association list with exactly those semantics.
* Raised exceptions are modelled with `Except`: the one filesystem error
  representable in this model is `pathlib.Path.mkdir(exist_ok=True)`
  raising `FileExistsError` when the target path exists and is not a
  directory (exist_ok only suppresses the error for an existing
  directory).  An error aborts the Python function at the raise point,
  which the embedding mirrors by returning the state reached so far.
-/

deriving instance DecidableEq for Except

namespace Boop

/-! ### Association lists with Python-dict semantics -/

/-- Lookup in an association list: value of the first entry with the given
key (Python dict lookup; keys are unique in any dict built by `aset`). -/
def aget? {κ α : Type} [DecidableEq κ] (m : List (κ × α)) (k : κ) : Option α :=
  (m.find? (fun e => decide (e.1 = k))).map (·.2)

/-- Python `d[k] = v`: if the key is present, update in place (keeping its
position in insertion order); otherwise append a new entry. -/
def aset {κ α : Type} [DecidableEq κ] (m : List (κ × α)) (k : κ) (v : α) : List (κ × α) :=
  if (m.find? (fun e => decide (e.1 = k))).isSome then
    m.map (fun e => if e.1 = k then (k, v) else e)
  else m ++ [(k, v)]

/-- Python `d.pop(k, None)`: remove the entry with the given key. -/
def adel {κ α : Type} [DecidableEq κ] (m : List (κ × α)) (k : κ) : List (κ × α) :=
  m.filter (fun e => decide (e.1 ≠ k))

/-- Python `d.get(k, dflt)`. -/
def agetD {κ α : Type} [DecidableEq κ] (m : List (κ × α)) (k : κ) (dflt : α) : α :=
  (aget? m k).getD dflt

/-! ### Paths and filename operations (`pathlib` semantics) -/

/-- An absolute path, as its list of components. -/
abbrev PathT := List String

/-- `pathlib.Path.name`: the final component. -/
def pathName (p : PathT) : String := p.getLastD ""

/-- `pathlib.Path.parent`: the path without its final component. -/
def pathParent (p : PathT) : PathT := p.dropLast

/-- `folder / name`: append one component. -/
def pathJoin (d : PathT) (n : String) : PathT := d ++ [n]

/-- Python `name.startswith(".")`: the first character is a dot. -/
def hiddenName (s : String) : Bool := s.data.head? == some '.'

/-- Index of the last `'.'` in a character list (`str.rfind('.')`),
`none` when there is no dot. -/
def lastDotIdx : List Char → Nat → Option Nat → Option Nat
  | [], _, acc => acc
  | c :: cs, i, acc => lastDotIdx cs (i + 1) (if c = '.' then some i else acc)

/-- `pathlib.PurePath.suffix` of a file name: `name[i:]` where `i` is the
index of the last dot, provided `0 < i < len(name) - 1`; otherwise `""`. -/
def pySuffix (name : String) : String :=
  match lastDotIdx name.data 0 none with
  | none => ""
  | some i => if 0 < i ∧ i + 1 < name.data.length then ⟨name.data.drop i⟩ else ""

/-- `pathlib.PurePath.stem` of a file name: `name[:i]` under the same
condition as `pySuffix`, otherwise the whole name. -/
def pyStem (name : String) : String :=
  match lastDotIdx name.data 0 none with
  | none => name
  | some i => if 0 < i ∧ i + 1 < name.data.length then ⟨name.data.take i⟩ else name

/-- Python `str.lower()`, character-wise (extensions are ASCII). -/
def strLower (s : String) : String := ⟨s.data.map Char.toLower⟩

/-! ### Filesystem model -/

/-- Filesystem state: the existing regular files and the existing
directories, each as a finite list of paths. -/
structure FS where
  files : List PathT
  dirs : List PathT
deriving DecidableEq

/-- `pathlib.Path.exists()`: the path is an existing file or directory. -/
def pathExists (fs : FS) (p : PathT) : Prop := p ∈ fs.files ∨ p ∈ fs.dirs

instance (fs : FS) (p : PathT) : Decidable (pathExists fs p) := by
  unfold pathExists; infer_instance

/-- Errors raised by the move pipeline.  `mkdirBlocked` is
`FileExistsError` from `Path.mkdir(exist_ok=True)` when the target exists
and is not a directory.  `probeExhausted` is a model artifact: the
collision probe is given fuel `|files| + |dirs| + 1`, enough for the
finitely many occupied names, so it never actually fires. -/
inductive MoveErr
  | mkdirBlocked
  | probeExhausted
deriving DecidableEq

/-- `dest_folder.mkdir(exist_ok=True)` (src/app.py:191, 299): succeed
silently if the directory exists, raise `FileExistsError` if a
non-directory occupies the path, create the directory otherwise.  (The
watch folder, the only parent ever used, is assumed to exist.) -/
def mkdirExistOk (fs : FS) (d : PathT) : Except MoveErr FS :=
  if d ∈ fs.dirs then .ok fs
  else if d ∈ fs.files then .error .mkdirBlocked
  else .ok { fs with dirs := d :: fs.dirs }

/-- `shutil.move(src, dst)` (src/app.py:203, 310) for an existing source
and a non-existing destination: the entry leaves its old path and appears
at the new one.  Callers only invoke it on sources they observed to
exist, with a destination that the collision probe found unoccupied. -/
def moveFS (fs : FS) (src dst : PathT) : FS :=
  if src ∈ fs.files then { fs with files := dst :: fs.files.erase src }
  else if src ∈ fs.dirs then { fs with dirs := dst :: fs.dirs.erase src }
  else fs

/-! ### Extension classifier (src/app.py:53-69) -/

/-- `build_extension_map`: fold the category table into a reverse lookup
dict, lower-casing each extension; a later insert for the same extension
overwrites the earlier one (src/app.py:65-69). -/
def build_extension_map (categories : List (String × List String)) :
    List (String × String) :=
  categories.foldl
    (fun acc ce => ce.2.foldl (fun acc e => aset acc (strLower e) ce.1) acc) []

/-! ### The handler (src/app.py:76-207) -/

/-- Immutable configuration of `DownloadHandler` (src/app.py:91-111):
the watched folder, the extension map, the debounce window, and whether
an `on_file_moved` callback is registered. -/
structure Handler where
  watch_folder : PathT
  ext_map : List (String × String)
  debounce : Int
  hasCallback : Bool

/-- The mutable `pending` dict of the handler: path ↦ last-seen time. -/
abbrev Pend := List (PathT × Int)

/-- `on_created` (src/app.py:113-133): ignore directory events, events
outside the watch-folder root, and hidden names; otherwise record
`pending[path] = time.time()`. -/
def on_created (h : Handler) (pend : Pend) (is_directory : Bool) (src_path : PathT)
    (now : Int) : Pend :=
  if is_directory then pend
  else if pathParent src_path ≠ h.watch_folder then pend
  else if hiddenName (pathName src_path) then pend
  else aset pend src_path now

/-- `on_modified` (src/app.py:135-147): ignore directory events; refresh
the timestamp of a path already in `pending`, never add a new one. -/
def on_modified (pend : Pend) (is_directory : Bool) (src_path : PathT)
    (now : Int) : Pend :=
  if is_directory then pend
  else if (aget? pend src_path).isSome then aset pend src_path now
  else pend

/-! ### The move pipeline (src/app.py:175-207, duplicated at 295-315) -/

/-- Collision candidate name `f"{stem}_{counter}{ext}"` (src/app.py:199,
307); `ext` is the already lower-cased extension. -/
def collisionName (stem : String) (counter : Nat) (ext : String) : String :=
  stem ++ "_" ++ toString counter ++ ext

/-- The `while dest_path.exists()` probe (src/app.py:198-200, 306-308):
try `stem_counter ext`, `stem_(counter+1) ext`, … returning the first
unoccupied candidate.  Runs on fuel; callers pass fuel exceeding the
number of existing filesystem entries, so the probe cannot run out. -/
def findFree (fs : FS) (dest_folder : PathT) (stem ext : String) :
    Nat → Nat → Option PathT
  | _, 0 => none
  | counter, fuel + 1 =>
    let cand := pathJoin dest_folder (collisionName stem counter ext)
    if pathExists fs cand then findFree fs dest_folder stem ext (counter + 1) fuel
    else some cand

/-- Destination selection (src/app.py:192-200, 300-308): start from
`dest_folder / path.name`; if occupied, probe `stem_1`, `stem_2`, … -/
def resolveDest (fs : FS) (dest_folder : PathT) (name ext : String) : Option PathT :=
  let dest0 := pathJoin dest_folder name
  if pathExists fs dest0 then
    findFree fs dest_folder (pyStem name) ext 1 (fs.files.length + fs.dirs.length + 1)
  else some dest0

/-- The move steps shared verbatim by `DownloadHandler.move_file`
(src/app.py:186-203) and `Boop.reorganize_all` (src/app.py:295-310):
lower-cased extension lookup with fallback `"Other"`, `mkdir` of the
category folder, collision-safe destination, `shutil.move`.  Returns the
new filesystem, the destination, and the category. -/
def moveCore (wf : PathT) (ext_map : List (String × String)) (fs : FS)
    (path : PathT) : Except MoveErr (FS × PathT × String) :=
  let ext := strLower (pySuffix (pathName path))
  let category := agetD ext_map ext "Other"
  let dest_folder := pathJoin wf category
  match mkdirExistOk fs dest_folder with
  | .error e => .error e
  | .ok fs1 =>
    match resolveDest fs1 dest_folder (pathName path) ext with
    | none => .error .probeExhausted
    | some dest =>
      .ok (moveFS fs1 path dest, dest, category)

/-- Observable result of `DownloadHandler.move_file` (src/app.py:175-207):
the filesystem after the move, the destination and category it computed,
the callback invocations it performed (src/app.py:206-207), and its
Python return value — the function body has no `return` statement, so it
returns `None`, recorded here as `ret`. -/
structure MoveOut where
  fs : FS
  dest : PathT
  category : String
  calls : List (PathT × String)
  ret : Option (PathT × String)
deriving DecidableEq

/-- `DownloadHandler.move_file` (src/app.py:175-207). -/
def move_file (h : Handler) (fs : FS) (path : PathT) : Except MoveErr MoveOut :=
  match moveCore h.watch_folder h.ext_map fs path with
  | .error e => .error e
  | .ok (fs2, dest, category) =>
    .ok { fs := fs2, dest := dest, category := category,
          calls := if h.hasCallback then [(dest, category)] else [],
          ret := none }

/-! ### The periodic tick (src/app.py:149-173) -/

/-- Outcome of examining one pending entry inside the
`process_pending` loop (src/app.py:159-169). -/
inductive StepRes
  | notStable
  | missing
  | moved (out : MoveOut)
  | failed (e : MoveErr)
deriving DecidableEq

/-- One iteration of the `process_pending` loop body for entry
`(p, t)` against the current filesystem at time `now`:
skip if recently modified, append to `to_remove` then skip silently if the
file no longer exists, otherwise `move_file` (src/app.py:159-169). -/
def tickStep (h : Handler) (fs : FS) (now : Int) (p : PathT) (t : Int) : StepRes :=
  if now - t < h.debounce then .notStable
  else if pathExists fs p then
    match move_file h fs p with
    | .error e => .failed e
    | .ok out => .moved out
  else .missing

/-- Observable result of one `process_pending` call: the pending dict and
filesystem afterwards, the `to_remove` list as accumulated, the callback
invocations, and the exception (if `move_file` raised, aborting the call
before the clean-up loop at src/app.py:171-173 could run). -/
structure TickOut where
  pending : Pend
  fs : FS
  toRemove : List PathT
  calls : List (PathT × String)
  err : Option MoveErr
deriving DecidableEq

/-- The `process_pending` loop over the snapshot `list(pending.items())`
(src/app.py:159-169), followed on normal completion by the clean-up loop
popping every `to_remove` path (src/app.py:171-173).  An exception
propagates immediately: the pending dict — untouched during the loop —
is returned as is. -/
def tickGo (h : Handler) (pend0 : Pend) (now : Int) :
    List (PathT × Int) → FS → List PathT → List (PathT × String) → TickOut
  | [], fs, rem, calls => ⟨rem.foldl adel pend0, fs, rem, calls, none⟩
  | (p, t) :: rest, fs, rem, calls =>
    match tickStep h fs now p t with
    | .notStable => tickGo h pend0 now rest fs rem calls
    | .missing => tickGo h pend0 now rest fs (rem ++ [p]) calls
    | .moved out => tickGo h pend0 now rest out.fs (rem ++ [p]) (calls ++ out.calls)
    | .failed e => ⟨pend0, fs, rem ++ [p], calls, some e⟩

/-- `DownloadHandler.process_pending` (src/app.py:149-173). -/
def process_pending (h : Handler) (pend : Pend) (fs : FS) (now : Int) : TickOut :=
  tickGo h pend now pend fs [] []

/-! ### One-shot sweep `Boop.reorganize_all` (src/app.py:280-317) -/

/-- `watch_folder.iterdir()` (src/app.py:290): the entries — files and
directories — directly inside the watch folder, as a snapshot. -/
def iterdir (fs : FS) (wf : PathT) : List PathT :=
  fs.files.filter (fun p => decide (pathParent p = wf)) ++
    fs.dirs.filter (fun p => decide (pathParent p = wf))

/-- The non-directory, non-hidden entries directly inside the watch
folder: the files `reorganize_all` is specified to move. -/
def eligibleEntries (fs : FS) (wf : PathT) : List PathT :=
  fs.files.filter (fun p => decide (pathParent p = wf) && !hiddenName (pathName p))

/-- Observable result of `Boop.reorganize_all`: the filesystem, the
returned count, and the callback invocations. -/
structure ReorgOut where
  fs : FS
  count : Nat
  calls : List (PathT × String)
deriving DecidableEq

/-- The `reorganize_all` loop (src/app.py:290-315): skip directories
(checked against the current filesystem) and hidden names, otherwise run
the move steps — shared verbatim with `move_file` — count the move and
invoke the callback.  An exception aborts the loop and propagates. -/
def reorgGo (wf : PathT) (ext_map : List (String × String)) (hasCB : Bool) :
    List PathT → FS → Nat → List (PathT × String) → Except MoveErr ReorgOut
  | [], fs, count, calls => .ok ⟨fs, count, calls⟩
  | p :: rest, fs, count, calls =>
    if p ∈ fs.dirs ∨ hiddenName (pathName p) then
      reorgGo wf ext_map hasCB rest fs count calls
    else
      match moveCore wf ext_map fs p with
      | .error e => .error e
      | .ok (fs1, dest, category) =>
        reorgGo wf ext_map hasCB rest fs1 (count + 1)
          (calls ++ if hasCB then [(dest, category)] else [])

/-- `Boop.reorganize_all` (src/app.py:280-317). -/
def reorganize_all (wf : PathT) (ext_map : List (String × String)) (hasCB : Bool)
    (fs : FS) : Except MoveErr ReorgOut :=
  reorgGo wf ext_map hasCB (iterdir fs wf) fs 0 []

/-! ### Engine traces -/

/-- External stimuli of the engine: filesystem events delivered by the
watchdog observer (each carrying the `is_directory` flag and arriving at
some time), the periodic tick, and an arbitrary external filesystem
change (downloads appearing, users deleting files, …). -/
inductive Ev
  | created (is_directory : Bool) (p : PathT) (t : Int)
  | modified (is_directory : Bool) (p : PathT) (t : Int)
  | tick (t : Int)
  | fsExt (fs : FS)

/-- Engine state: the pending dict and the filesystem. -/
structure EngState where
  pending : Pend
  fs : FS

/-- One engine step. -/
def stepEv (h : Handler) (s : EngState) : Ev → EngState
  | .created d p t => ⟨on_created h s.pending d p t, s.fs⟩
  | .modified d p t => ⟨on_modified s.pending d p t, s.fs⟩
  | .tick t =>
    let o := process_pending h s.pending s.fs t
    ⟨o.pending, o.fs⟩
  | .fsExt f => ⟨s.pending, f⟩

/-- Run the engine over a list of stimuli. -/
def run (h : Handler) (s : EngState) (evs : List Ev) : EngState :=
  evs.foldl (stepEv h) s

/-- A path may sit in the pending set only if it is directly inside the
watch folder and its name is not hidden (spec §3 invariant). -/
def eligible (h : Handler) (p : PathT) : Prop :=
  pathParent p = h.watch_folder ∧ hiddenName (pathName p) = false

/-- Membership in the pending dict. -/
def isPend (pend : Pend) (p : PathT) : Prop := (aget? pend p).isSome

instance (pend : Pend) (p : PathT) : Decidable (isPend pend p) := by
  unfold isPend; infer_instance

/-! ### Spec-side and claim-support definitions -/

/-- Spec reading of the extension index (spec §4.1 "last category wins"):
for lookup key `k`, the category of the last `(category, extension)` pair
in iteration order whose lower-cased extension equals `k` — written from
the spec's words, to be compared with `build_extension_map`. -/
def lastWinsSpec (categories : List (String × List String)) (k : String) :
    Option String :=
  categories.foldl
    (fun acc ce => ce.2.foldl (fun acc e => if strLower e = k then some ce.1 else acc) acc)
    none

/-- An interleaving element for claim C6: a watchdog modification event
for the tracked path, or a periodic tick, each carrying its time. -/
inductive RT
  | refresh (t : Int)
  | tick (t : Int)
deriving DecidableEq

/-- Time of the first refresh in an interleaving, if any. -/
def headRefresh : List RT → Option Int
  | [] => none
  | .refresh u :: _ => some u
  | .tick _ :: rest => headRefresh rest

/-- Wellformedness of a C6 interleaving relative to debounce `d` and the
tracked path's current timestamp `last`: times are nondecreasing,
consecutive refreshes of the path are separated by less than `d`, and
every tick happens no later than some subsequent refresh (the claim's
"while those refreshes continue"). -/
def okSeqB (d : Int) : Int → List RT → Bool
  | _, [] => true
  | last, .refresh u :: rest =>
    decide (last ≤ u) && decide (u - last < d) && okSeqB d u rest
  | last, .tick u :: rest =>
    decide (last ≤ u) &&
      (match headRefresh rest with
       | some u' => decide (u ≤ u')
       | none => false) &&
      okSeqB d last rest

/-- Run the engine over a C6 interleaving: refreshes are `on_modified`
file events for `p`, ticks are `process_pending` calls. -/
def runRT (h : Handler) (p : PathT) : EngState → List RT → EngState
  | s, [] => s
  | s, .refresh u :: rest => runRT h p ⟨on_modified s.pending false p u, s.fs⟩ rest
  | s, .tick u :: rest =>
    runRT h p
      ⟨(process_pending h s.pending s.fs u).pending,
        (process_pending h s.pending s.fs u).fs⟩ rest

/-! ### Association-list lemmas -/

section AList

variable {κ α : Type} [DecidableEq κ]

theorem aget?_nil (k : κ) : aget? ([] : List (κ × α)) k = none := rfl

theorem aget?_cons (e : κ × α) (m : List (κ × α)) (k : κ) :
    aget? (e :: m) k = if e.1 = k then some e.2 else aget? m k := by
  by_cases h : e.1 = k <;> simp [aget?, List.find?_cons_of_pos, List.find?_cons_of_neg, h]

theorem aget?_append (m₁ m₂ : List (κ × α)) (k : κ) :
    aget? (m₁ ++ m₂) k = (aget? m₁ k).or (aget? m₂ k) := by
  simp only [aget?, List.find?_append]
  cases m₁.find? (fun e => decide (e.1 = k)) <;> simp

theorem aget?_map_update (m : List (κ × α)) (k : κ) (v : α) :
    aget? (m.map (fun e => if e.1 = k then (k, v) else e)) k =
      if (aget? m k).isSome then some v else none := by
  induction m with
  | nil => simp [aget?]
  | cons e m ih =>
    by_cases h : e.1 = k
    · simp [List.map_cons, if_pos h, aget?_cons, h]
    · simp only [List.map_cons, if_neg h, aget?_cons, ih]

theorem aget?_map_update_ne (m : List (κ × α)) (k k' : κ) (v : α) (h : k' ≠ k) :
    aget? (m.map (fun e => if e.1 = k then (k, v) else e)) k' = aget? m k' := by
  induction m with
  | nil => simp
  | cons e m ih =>
    by_cases he : e.1 = k
    · simp only [List.map_cons, if_pos he, aget?_cons, ih]
      rw [if_neg (fun hk => h hk.symm), if_neg (by rw [he]; exact fun hk => h hk.symm)]
    · simp only [List.map_cons, if_neg he, aget?_cons, ih]

theorem aget?_aset_self (m : List (κ × α)) (k : κ) (v : α) :
    aget? (aset m k v) k = some v := by
  unfold aset
  by_cases h : (m.find? (fun e => decide (e.1 = k))).isSome
  · rw [if_pos h, aget?_map_update]
    have : (aget? m k).isSome := by
      simp only [aget?, Option.isSome_map']
      exact h
    rw [if_pos this]
  · rw [if_neg h, aget?_append]
    have hnone : aget? m k = none := by
      simp only [aget?, Option.map_eq_none']
      exact Option.not_isSome_iff_eq_none.1 h
    rw [hnone]
    simp [aget?_cons]

theorem aget?_aset_ne (m : List (κ × α)) (k k' : κ) (v : α) (h : k' ≠ k) :
    aget? (aset m k v) k' = aget? m k' := by
  unfold aset
  by_cases hf : (m.find? (fun e => decide (e.1 = k))).isSome
  · rw [if_pos hf, aget?_map_update_ne _ _ _ _ h]
  · rw [if_neg hf, aget?_append, aget?_cons]
    rw [if_neg (fun hk => h hk.symm)]
    cases hm : aget? m k' <;> simp [aget?_nil]

theorem keys_map_update (m : List (κ × α)) (k : κ) (v : α) :
    (m.map (fun e => if e.1 = k then (k, v) else e)).map Prod.fst = m.map Prod.fst := by
  induction m with
  | nil => rfl
  | cons e m ih =>
    by_cases he : e.1 = k
    · subst he
      simp [ih]
    · simp [if_neg he, ih]

theorem keys_aset_of_isSome (m : List (κ × α)) (k : κ) (v : α)
    (h : (aget? m k).isSome) : (aset m k v).map Prod.fst = m.map Prod.fst := by
  unfold aset
  have hf : (m.find? (fun e => decide (e.1 = k))).isSome := by
    simpa only [aget?, Option.isSome_map'] using h
  rw [if_pos hf, keys_map_update]

theorem aget?_adel_self (m : List (κ × α)) (k : κ) : aget? (adel m k) k = none := by
  simp only [aget?, adel, Option.map_eq_none', List.find?_eq_none]
  intro e he
  have := (List.mem_filter.1 he).2
  simp only [decide_eq_true_eq] at this ⊢
  exact this

theorem aget?_adel_ne (m : List (κ × α)) (k k' : κ) (h : k' ≠ k) :
    aget? (adel m k) k' = aget? m k' := by
  induction m with
  | nil => rfl
  | cons e m ih =>
    by_cases he : e.1 = k
    · have : adel (e :: m) k = adel m k := by
        simp [adel, List.filter, he]
      rw [this, ih, aget?_cons, if_neg (by rw [he]; exact fun hk => h hk.symm)]
    · have : adel (e :: m) k = e :: adel m k := by
        simp [adel, List.filter, he]
      rw [this, aget?_cons, aget?_cons, ih]

theorem aget?_isSome_iff_mem_keys (m : List (κ × α)) (k : κ) :
    (aget? m k).isSome ↔ k ∈ m.map Prod.fst := by
  simp only [aget?, Option.isSome_map', List.find?_isSome, List.mem_map]
  constructor
  · rintro ⟨e, he, hk⟩
    exact ⟨e, he, by simpa using hk⟩
  · rintro ⟨e, he, hk⟩
    exact ⟨e, he, by simpa using hk⟩

theorem mem_of_aget?_eq_some {m : List (κ × α)} {k : κ} {v : α}
    (h : aget? m k = some v) : (k, v) ∈ m := by
  simp only [aget?, Option.map_eq_some'] at h
  obtain ⟨e, he, hv⟩ := h
  have hk := List.find?_some he
  simp only [decide_eq_true_eq] at hk
  have := List.mem_of_find?_eq_some he
  rwa [(show e = (k, v) from Prod.ext hk hv)] at this

theorem aget?_eq_some_of_mem_nodup {m : List (κ × α)} {k : κ} {v : α}
    (hnd : (m.map Prod.fst).Nodup) (h : (k, v) ∈ m) : aget? m k = some v := by
  induction m with
  | nil => cases h
  | cons e m ih =>
    simp only [List.map_cons, List.nodup_cons] at hnd
    cases h with
    | head => rw [aget?_cons]; simp
    | tail _ h =>
      rw [aget?_cons]
      have hk : e.1 ≠ k := fun hk => hnd.1 (hk ▸ (List.mem_map.2 ⟨(k, v), h, rfl⟩))
      rw [if_neg hk]
      exact ih hnd.2 h

theorem foldl_adel_aget? (l : List κ) (m : List (κ × α)) (k : κ) :
    aget? (l.foldl adel m) k = if k ∈ l then none else aget? m k := by
  induction l generalizing m with
  | nil => simp
  | cons a l ih =>
    simp only [List.foldl_cons, ih, List.mem_cons]
    by_cases hk : k = a
    · subst hk
      simp [aget?_adel_self]
    · rw [aget?_adel_ne _ _ _ hk]
      by_cases hl : k ∈ l <;> simp [hl, hk]

theorem adel_keys_sublist (m : List (κ × α)) (k : κ) :
    ((adel m k).map Prod.fst).Sublist (m.map Prod.fst) :=
  List.Sublist.map _ (List.filter_sublist m)

theorem foldl_adel_keys_nodup (l : List κ) (m : List (κ × α))
    (h : (m.map Prod.fst).Nodup) : ((l.foldl adel m).map Prod.fst).Nodup := by
  induction l generalizing m with
  | nil => exact h
  | cons a l ih =>
    exact ih _ ((adel_keys_sublist m a).nodup h)

end AList

/-! ### Path and filesystem lemmas -/

theorem pathParent_pathJoin (d : PathT) (n : String) : pathParent (pathJoin d n) = d :=
  List.dropLast_concat

theorem pathJoin_ne (d : PathT) (n : String) : pathJoin d n ≠ d := by
  intro h
  have := congrArg List.length h
  simp [pathJoin] at this

theorem pathJoin_len (d : PathT) (n : String) : (pathJoin d n).length = d.length + 1 := by
  simp [pathJoin]

theorem pathName_pathJoin (d : PathT) (n : String) : pathName (pathJoin d n) = n := by
  simp [pathName, pathJoin]

theorem mkdirExistOk_files {fs fs' : FS} {d : PathT}
    (h : mkdirExistOk fs d = .ok fs') : fs'.files = fs.files := by
  unfold mkdirExistOk at h
  split at h
  · cases h; rfl
  · split at h
    · cases h
    · cases h; rfl

theorem mkdirExistOk_dirs {fs fs' : FS} {d : PathT}
    (h : mkdirExistOk fs d = .ok fs') : fs'.dirs = fs.dirs ∨ fs'.dirs = d :: fs.dirs := by
  unfold mkdirExistOk at h
  split at h
  · cases h; exact .inl rfl
  · split at h
    · cases h
    · cases h; exact .inr rfl

theorem mkdirExistOk_dirs_mem {fs fs' : FS} {d : PathT}
    (h : mkdirExistOk fs d = .ok fs') {q : PathT} (hq : q ∈ fs.dirs) : q ∈ fs'.dirs := by
  rcases mkdirExistOk_dirs h with h' | h' <;> rw [h']
  · exact hq
  · exact .tail _ hq

theorem mkdirExistOk_exists_iff {fs fs' : FS} {d : PathT}
    (h : mkdirExistOk fs d = .ok fs') {c : PathT} (hc : c ≠ d) :
    pathExists fs' c ↔ pathExists fs c := by
  unfold pathExists
  rw [mkdirExistOk_files h]
  rcases mkdirExistOk_dirs h with h' | h' <;> rw [h']
  simp [List.mem_cons, hc]

theorem moveFS_files_mem {fs : FS} {src dst q : PathT}
    (hq : q ∈ fs.files) (hne : q ≠ src) : q ∈ (moveFS fs src dst).files := by
  unfold moveFS
  split
  · exact .tail _ ((List.mem_erase_of_ne hne).2 hq)
  · split <;> exact hq

theorem moveFS_files_dst {fs : FS} {src dst : PathT}
    (h : src ∈ fs.files) : dst ∈ (moveFS fs src dst).files := by
  unfold moveFS
  rw [if_pos h]
  exact .head _

theorem moveFS_dirs_mem {fs : FS} {src dst q : PathT}
    (hq : q ∈ fs.dirs) (hne : q ≠ src) : q ∈ (moveFS fs src dst).dirs := by
  unfold moveFS
  split
  · exact hq
  · split
    · exact .tail _ ((List.mem_erase_of_ne hne).2 hq)
    · exact hq

theorem moveFS_files_src_not_mem {fs : FS} {src dst : PathT}
    (hnd : fs.files.Nodup) (hds : dst ≠ src) (h : src ∈ fs.files) :
    src ∉ (moveFS fs src dst).files := by
  unfold moveFS
  rw [if_pos h]
  intro hmem
  cases hmem with
  | head => exact hds rfl
  | tail _ hmem => exact hnd.not_mem_erase hmem

/-! ### Collision probe lemmas -/

theorem findFree_spec {fs : FS} {dest_folder : PathT} {stem ext : String} :
    ∀ (fuel counter : Nat) (d : PathT),
      findFree fs dest_folder stem ext counter fuel = some d →
      ∃ k, counter ≤ k ∧ d = pathJoin dest_folder (collisionName stem k ext) ∧
        ¬pathExists fs d ∧
        ∀ j, counter ≤ j → j < k →
          pathExists fs (pathJoin dest_folder (collisionName stem j ext)) := by
  intro fuel
  induction fuel with
  | zero => intro counter d h; cases h
  | succ fuel ih =>
    intro counter d h
    unfold findFree at h
    by_cases hocc : pathExists fs (pathJoin dest_folder (collisionName stem counter ext))
    · rw [if_pos hocc] at h
      obtain ⟨k, hk1, hk2, hk3, hk4⟩ := ih (counter + 1) d h
      refine ⟨k, by omega, hk2, hk3, fun j hj1 hj2 => ?_⟩
      rcases Nat.eq_or_lt_of_le hj1 with hj | hj
      · exact hj ▸ hocc
      · exact hk4 j hj hj2
    · rw [if_neg hocc] at h
      cases h
      exact ⟨counter, le_refl _, rfl, hocc, fun j hj1 hj2 => by omega⟩

theorem resolveDest_not_exists {fs : FS} {folder : PathT} {name ext : String} {d : PathT}
    (h : resolveDest fs folder name ext = some d) : ¬pathExists fs d := by
  simp only [resolveDest] at h
  split at h
  · obtain ⟨k, -, -, hne, -⟩ := findFree_spec _ _ _ h
    exact hne
  · cases h
    assumption

theorem resolveDest_of_free {fs : FS} {folder : PathT} {name ext : String}
    (h0 : ¬pathExists fs (pathJoin folder name)) :
    resolveDest fs folder name ext = some (pathJoin folder name) := by
  simp only [resolveDest]
  rw [if_neg h0]

theorem resolveDest_of_occupied {fs : FS} {folder : PathT} {name ext : String} {d : PathT}
    (h0 : pathExists fs (pathJoin folder name))
    (h : resolveDest fs folder name ext = some d) :
    ∃ k, 1 ≤ k ∧ d = pathJoin folder (collisionName (pyStem name) k ext) ∧
      ¬pathExists fs d ∧
      ∀ j, 1 ≤ j → j < k →
        pathExists fs (pathJoin folder (collisionName (pyStem name) j ext)) := by
  simp only [resolveDest] at h
  rw [if_pos h0] at h
  exact findFree_spec _ _ _ h

/-! ### Move pipeline lemmas -/

theorem moveCore_ok {wf : PathT} {em : List (String × String)} {fs : FS} {path : PathT}
    {fs' : FS} {dest : PathT} {cat : String}
    (h : moveCore wf em fs path = .ok (fs', dest, cat)) :
    cat = agetD em (strLower (pySuffix (pathName path))) "Other" ∧
    ∃ fs1, mkdirExistOk fs (pathJoin wf cat) = .ok fs1 ∧
      resolveDest fs1 (pathJoin wf cat) (pathName path)
        (strLower (pySuffix (pathName path))) = some dest ∧
      fs' = moveFS fs1 path dest := by
  simp only [moveCore] at h
  split at h
  · cases h
  · split at h
    · cases h
    · cases h
      refine ⟨rfl, _, ?_, ?_, rfl⟩
      · assumption
      · assumption

theorem move_file_ok {h : Handler} {fs : FS} {path : PathT} {out : MoveOut}
    (hm : move_file h fs path = .ok out) :
    moveCore h.watch_folder h.ext_map fs path = .ok (out.fs, out.dest, out.category) ∧
    out.calls = (if h.hasCallback then [(out.dest, out.category)] else []) ∧
    out.ret = none := by
  unfold move_file at hm
  split at hm
  · cases hm
  · rename_i res fs2 dest category heq
    cases hm
    exact ⟨heq, rfl, rfl⟩

theorem move_file_files_mem {h : Handler} {fs : FS} {path : PathT} {out : MoveOut}
    (hm : move_file h fs path = .ok out) {q : PathT} (hq : q ∈ fs.files)
    (hne : q ≠ path) : q ∈ out.fs.files := by
  obtain ⟨hcore, -, -⟩ := move_file_ok hm
  obtain ⟨-, fs1, hmk, -, hfs⟩ := moveCore_ok hcore
  rw [hfs]
  exact moveFS_files_mem (by rw [mkdirExistOk_files hmk]; exact hq) hne

/-! ### Tick-loop lemmas -/

theorem tickGo_cons_notStable {h : Handler} {pend0 : Pend} {now : Int} {p : PathT}
    {t : Int} {rest : List (PathT × Int)} {fs : FS} {rem : List PathT}
    {calls : List (PathT × String)} (hs : tickStep h fs now p t = .notStable) :
    tickGo h pend0 now ((p, t) :: rest) fs rem calls =
      tickGo h pend0 now rest fs rem calls := by
  simp only [tickGo, hs]

theorem tickGo_cons_missing {h : Handler} {pend0 : Pend} {now : Int} {p : PathT}
    {t : Int} {rest : List (PathT × Int)} {fs : FS} {rem : List PathT}
    {calls : List (PathT × String)} (hs : tickStep h fs now p t = .missing) :
    tickGo h pend0 now ((p, t) :: rest) fs rem calls =
      tickGo h pend0 now rest fs (rem ++ [p]) calls := by
  simp only [tickGo, hs]

theorem tickGo_cons_moved {h : Handler} {pend0 : Pend} {now : Int} {p : PathT}
    {t : Int} {rest : List (PathT × Int)} {fs : FS} {rem : List PathT}
    {calls : List (PathT × String)} {out : MoveOut}
    (hs : tickStep h fs now p t = .moved out) :
    tickGo h pend0 now ((p, t) :: rest) fs rem calls =
      tickGo h pend0 now rest out.fs (rem ++ [p]) (calls ++ out.calls) := by
  simp only [tickGo, hs]

theorem tickGo_cons_failed {h : Handler} {pend0 : Pend} {now : Int} {p : PathT}
    {t : Int} {rest : List (PathT × Int)} {fs : FS} {rem : List PathT}
    {calls : List (PathT × String)} {e : MoveErr}
    (hs : tickStep h fs now p t = .failed e) :
    tickGo h pend0 now ((p, t) :: rest) fs rem calls =
      ⟨pend0, fs, rem ++ [p], calls, some e⟩ := by
  simp only [tickGo, hs]

theorem tickStep_stable {h : Handler} {fs : FS} {now : Int} {p : PathT} {t : Int}
    (hs : tickStep h fs now p t ≠ .notStable) : h.debounce ≤ now - t := by
  unfold tickStep at hs
  by_cases hlt : now - t < h.debounce
  · rw [if_pos hlt] at hs
    exact absurd rfl hs
  · omega

theorem tickStep_of_unstable {h : Handler} {fs : FS} {now : Int} {p : PathT} {t : Int}
    (hlt : now - t < h.debounce) : tickStep h fs now p t = .notStable := by
  unfold tickStep
  rw [if_pos hlt]

theorem tickStep_of_missing {h : Handler} {fs : FS} {now : Int} {p : PathT} {t : Int}
    (hst : h.debounce ≤ now - t) (hex : ¬pathExists fs p) :
    tickStep h fs now p t = .missing := by
  unfold tickStep
  rw [if_neg (by omega), if_neg hex]

theorem tickGo_toRemove_ext {h : Handler} {pend0 : Pend} {now : Int} :
    ∀ (l : List (PathT × Int)) (fs : FS) (rem : List PathT)
      (calls : List (PathT × String)),
      ∃ l', (tickGo h pend0 now l fs rem calls).toRemove = rem ++ l' := by
  intro l
  induction l with
  | nil => exact fun fs rem calls => ⟨[], by simp [tickGo]⟩
  | cons e rest ih =>
    intro fs rem calls
    obtain ⟨p, t⟩ := e
    cases hs : tickStep h fs now p t with
    | notStable => rw [tickGo_cons_notStable hs]; exact ih fs rem calls
    | missing =>
      rw [tickGo_cons_missing hs]
      obtain ⟨l', hl'⟩ := ih fs (rem ++ [p]) calls
      exact ⟨p :: l', by rw [hl']; simp⟩
    | moved out =>
      rw [tickGo_cons_moved hs]
      obtain ⟨l', hl'⟩ := ih out.fs (rem ++ [p]) (calls ++ out.calls)
      exact ⟨p :: l', by rw [hl']; simp⟩
    | failed e' =>
      rw [tickGo_cons_failed hs]
      exact ⟨[p], rfl⟩

theorem tickGo_toRemove_src {h : Handler} {pend0 : Pend} {now : Int} :
    ∀ (l : List (PathT × Int)) (fs : FS) (rem : List PathT)
      (calls : List (PathT × String)) (q : PathT),
      q ∈ (tickGo h pend0 now l fs rem calls).toRemove →
      q ∈ rem ∨ ∃ t, (q, t) ∈ l ∧ h.debounce ≤ now - t := by
  intro l
  induction l with
  | nil => intro fs rem calls q hq; exact .inl hq
  | cons e rest ih =>
    intro fs rem calls q hq
    obtain ⟨p, t⟩ := e
    have hrem : q ∈ rem ++ [p] → tickStep h fs now p t ≠ .notStable →
        q ∈ rem ∨ ∃ t', (q, t') ∈ (p, t) :: rest ∧ h.debounce ≤ now - t' := by
      intro h' hns
      rcases List.mem_append.1 h' with hq'' | hq''
      · exact .inl hq''
      · have hqp := List.mem_singleton.1 hq''
        subst hqp
        exact .inr ⟨t, .head _, tickStep_stable hns⟩
    cases hs : tickStep h fs now p t with
    | notStable =>
      rw [tickGo_cons_notStable hs] at hq
      rcases ih fs rem calls q hq with hq' | ⟨t', ht', hst⟩
      · exact .inl hq'
      · exact .inr ⟨t', .tail _ ht', hst⟩
    | missing =>
      rw [tickGo_cons_missing hs] at hq
      rcases ih fs (rem ++ [p]) calls q hq with hq' | ⟨t', ht', hst⟩
      · exact hrem hq' (by rw [hs]; exact fun hc => StepRes.noConfusion hc)
      · exact .inr ⟨t', .tail _ ht', hst⟩
    | moved out =>
      rw [tickGo_cons_moved hs] at hq
      rcases ih out.fs (rem ++ [p]) (calls ++ out.calls) q hq with hq' | ⟨t', ht', hst⟩
      · exact hrem hq' (by rw [hs]; exact fun hc => StepRes.noConfusion hc)
      · exact .inr ⟨t', .tail _ ht', hst⟩
    | failed e' =>
      rw [tickGo_cons_failed hs] at hq
      exact hrem hq (by rw [hs]; exact fun hc => StepRes.noConfusion hc)

theorem tickGo_err_none_complete {h : Handler} {pend0 : Pend} {now : Int} :
    ∀ (l : List (PathT × Int)) (fs : FS) (rem : List PathT)
      (calls : List (PathT × String)) (q : PathT) (t : Int),
      (tickGo h pend0 now l fs rem calls).err = none →
      (q, t) ∈ l → h.debounce ≤ now - t →
      q ∈ (tickGo h pend0 now l fs rem calls).toRemove := by
  intro l
  induction l with
  | nil => intro fs rem calls q t _ hmem; cases hmem
  | cons e rest ih =>
    intro fs rem calls q t herr hmem hst
    obtain ⟨p, t'⟩ := e
    cases hs : tickStep h fs now p t' with
    | notStable =>
      rw [tickGo_cons_notStable hs] at herr ⊢
      cases hmem with
      | head =>
        exfalso
        unfold tickStep at hs
        rw [if_neg (by omega : ¬now - t < h.debounce)] at hs
        split at hs
        · split at hs <;> cases hs
        · cases hs
      | tail _ hmem => exact ih fs rem calls q t herr hmem hst
    | missing =>
      rw [tickGo_cons_missing hs] at herr ⊢
      cases hmem with
      | head =>
        obtain ⟨l', hl'⟩ := tickGo_toRemove_ext rest fs (rem ++ [q]) calls
        rw [hl']
        simp
      | tail _ hmem => exact ih fs (rem ++ [p]) calls q t herr hmem hst
    | moved out =>
      rw [tickGo_cons_moved hs] at herr ⊢
      cases hmem with
      | head =>
        obtain ⟨l', hl'⟩ := tickGo_toRemove_ext rest out.fs (rem ++ [q]) (calls ++ out.calls)
        rw [hl']
        simp
      | tail _ hmem => exact ih out.fs (rem ++ [p]) (calls ++ out.calls) q t herr hmem hst
    | failed e' =>
      rw [tickGo_cons_failed hs] at herr
      cases herr

theorem tickStep_moved {h : Handler} {fs : FS} {now : Int} {p : PathT} {t : Int}
    {out : MoveOut} (hs : tickStep h fs now p t = .moved out) :
    h.debounce ≤ now - t ∧ pathExists fs p ∧ move_file h fs p = .ok out := by
  unfold tickStep at hs
  by_cases hlt : now - t < h.debounce
  · rw [if_pos hlt] at hs; cases hs
  · rw [if_neg hlt] at hs
    by_cases hex : pathExists fs p
    · rw [if_pos hex] at hs
      refine ⟨by omega, hex, ?_⟩
      cases hm : move_file h fs p with
      | error e => rw [hm] at hs; cases hs
      | ok o => rw [hm] at hs; cases hs; rfl
    · rw [if_neg hex] at hs; cases hs

theorem tickGo_pending_eq {h : Handler} {pend0 : Pend} {now : Int} :
    ∀ (l : List (PathT × Int)) (fs : FS) (rem : List PathT)
      (calls : List (PathT × String)),
      (tickGo h pend0 now l fs rem calls).pending =
        if (tickGo h pend0 now l fs rem calls).err = none
        then (tickGo h pend0 now l fs rem calls).toRemove.foldl adel pend0
        else pend0 := by
  intro l
  induction l with
  | nil => intro fs rem calls; simp [tickGo]
  | cons e rest ih =>
    intro fs rem calls
    obtain ⟨p, t⟩ := e
    cases hs : tickStep h fs now p t with
    | notStable => rw [tickGo_cons_notStable hs]; exact ih fs rem calls
    | missing => rw [tickGo_cons_missing hs]; exact ih fs (rem ++ [p]) calls
    | moved out =>
      rw [tickGo_cons_moved hs]; exact ih out.fs (rem ++ [p]) (calls ++ out.calls)
    | failed e' => rw [tickGo_cons_failed hs]; simp

theorem tickGo_files_preserved {h : Handler} {pend0 : Pend} {now : Int} :
    ∀ (l : List (PathT × Int)) (fs : FS) (rem : List PathT)
      (calls : List (PathT × String)) (q : PathT),
      (∀ t, (q, t) ∈ l → now - t < h.debounce) →
      q ∈ fs.files → q ∈ (tickGo h pend0 now l fs rem calls).fs.files := by
  intro l
  induction l with
  | nil => intro fs rem calls q _ hq; exact hq
  | cons e rest ih =>
    intro fs rem calls q hq hmem
    obtain ⟨p, t⟩ := e
    have hrest : ∀ t', (q, t') ∈ rest → now - t' < h.debounce :=
      fun t' ht' => hq t' (.tail _ ht')
    cases hs : tickStep h fs now p t with
    | notStable => rw [tickGo_cons_notStable hs]; exact ih fs rem calls q hrest hmem
    | missing => rw [tickGo_cons_missing hs]; exact ih fs (rem ++ [p]) calls q hrest hmem
    | moved out =>
      rw [tickGo_cons_moved hs]
      obtain ⟨hst, -, hmv⟩ := tickStep_moved hs
      have hne : q ≠ p := by
        intro hqp
        subst hqp
        exact absurd (hq t (.head _)) (by omega)
      exact ih out.fs (rem ++ [p]) (calls ++ out.calls) q hrest
        (move_file_files_mem hmv hmem hne)
    | failed e' => rw [tickGo_cons_failed hs]; exact hmem

/-! ### `process_pending` corollaries -/

theorem process_pending_lookup_not_removed {h : Handler} {pend : Pend} {fs : FS}
    {now : Int} {q : PathT} (hq : q ∉ (process_pending h pend fs now).toRemove) :
    aget? (process_pending h pend fs now).pending q = aget? pend q := by
  unfold process_pending at hq ⊢
  rw [tickGo_pending_eq]
  split
  · rw [foldl_adel_aget?, if_neg hq]
  · rfl

theorem process_pending_lookup_removed {h : Handler} {pend : Pend} {fs : FS}
    {now : Int} {q : PathT}
    (he : (process_pending h pend fs now).err = none)
    (hq : q ∈ (process_pending h pend fs now).toRemove) :
    aget? (process_pending h pend fs now).pending q = none := by
  unfold process_pending at he hq ⊢
  rw [tickGo_pending_eq, if_pos he, foldl_adel_aget?, if_pos hq]

theorem process_pending_of_err {h : Handler} {pend : Pend} {fs : FS} {now : Int}
    (he : (process_pending h pend fs now).err ≠ none) :
    (process_pending h pend fs now).pending = pend := by
  unfold process_pending at he ⊢
  rw [tickGo_pending_eq, if_neg he]

theorem process_pending_keys_nodup {h : Handler} {pend : Pend} {fs : FS} {now : Int}
    (hnd : (pend.map Prod.fst).Nodup) :
    ((process_pending h pend fs now).pending.map Prod.fst).Nodup := by
  unfold process_pending
  rw [tickGo_pending_eq]
  split
  · exact foldl_adel_keys_nodup _ _ hnd
  · exact hnd

theorem process_pending_toRemove_src {h : Handler} {pend : Pend} {fs : FS} {now : Int}
    {q : PathT} (hq : q ∈ (process_pending h pend fs now).toRemove) :
    ∃ t, (q, t) ∈ pend ∧ h.debounce ≤ now - t := by
  rcases tickGo_toRemove_src pend fs [] [] q hq with hq' | h'
  · cases hq'
  · exact h'

theorem process_pending_complete {h : Handler} {pend : Pend} {fs : FS} {now : Int}
    {q : PathT} {t : Int} (he : (process_pending h pend fs now).err = none)
    (hmem : (q, t) ∈ pend) (hst : h.debounce ≤ now - t) :
    q ∈ (process_pending h pend fs now).toRemove :=
  tickGo_err_none_complete pend fs [] [] q t he hmem hst

theorem process_pending_files_preserved {h : Handler} {pend : Pend} {fs : FS}
    {now : Int} {q : PathT} (hq : ∀ t, (q, t) ∈ pend → now - t < h.debounce)
    (hmem : q ∈ fs.files) : q ∈ (process_pending h pend fs now).fs.files :=
  tickGo_files_preserved pend fs [] [] q hq hmem

theorem resolveDest_parent {fs : FS} {folder : PathT} {name ext : String} {d : PathT}
    (h : resolveDest fs folder name ext = some d) : pathParent d = folder := by
  simp only [resolveDest] at h
  split at h
  · obtain ⟨k, -, hd, -, -⟩ := findFree_spec _ _ _ h
    rw [hd, pathParent_pathJoin]
  · cases h
    rw [pathParent_pathJoin]

/-! ## Claim theorems -/

/-- C1 (corrected).  On a tick at time `now`, provided the tick completes
without a move error, a pending entry `(p, t)` is attempted (appended to
`to_remove`) if and only if `now - t ≥ debounce`; and unconditionally — in
particular even when some other entry's move raises — an entry still
inside its debounce window is not attempted, stays in the pending dict
with its timestamp unchanged, and its file is not moved.  (The original
claim's unconditional "attempts iff stabilized" fails when an earlier
entry's `move_file` raises, aborting the loop: see the counterexample.) -/
theorem C1_tick_attempts_iff_stabilized (h : Handler) (pend : Pend) (fs : FS)
    (now : Int) (p : PathT) (t : Int)
    (hnd : (pend.map Prod.fst).Nodup)
    (hp : aget? pend p = some t) :
    ((process_pending h pend fs now).err = none →
      (p ∈ (process_pending h pend fs now).toRemove ↔ h.debounce ≤ now - t)) ∧
    (now - t < h.debounce →
      p ∉ (process_pending h pend fs now).toRemove ∧
      aget? (process_pending h pend fs now).pending p = some t ∧
      (p ∈ fs.files → p ∈ (process_pending h pend fs now).fs.files)) := by
  have hmem := mem_of_aget?_eq_some hp
  have huniq : ∀ t', (p, t') ∈ pend → t' = t := by
    intro t' ht'
    have h' := aget?_eq_some_of_mem_nodup hnd ht'
    rw [hp] at h'
    exact (Option.some.inj h').symm
  constructor
  · intro he
    constructor
    · intro hrm
      obtain ⟨t', ht', hst⟩ := process_pending_toRemove_src hrm
      rwa [huniq t' ht'] at hst
    · intro hst
      exact process_pending_complete he hmem hst
  · intro hlt
    have hnotrm : p ∉ (process_pending h pend fs now).toRemove := by
      intro hrm
      obtain ⟨t', ht', hst⟩ := process_pending_toRemove_src hrm
      rw [huniq t' ht'] at hst
      omega
    refine ⟨hnotrm, ?_, ?_⟩
    · rw [process_pending_lookup_not_removed hnotrm, hp]
    · intro hf
      exact process_pending_files_preserved
        (fun t' ht' => by rw [huniq t' ht']; exact hlt) hf

/-- C1 counterexample.  Pending holds `D/a` and `D/b`, both stabilized at
time 5 with debounce 2; a file named `D/Other` blocks the category-folder
`mkdir` while moving `D/a`, so the tick aborts: `D/b` is past its window
yet is never attempted, refuting the claim's unconditional
"attempts to process iff `now - lastSeen ≥ debounceWindow`". -/
theorem C1_counterexample :
    (2 : Int) ≤ 5 - 0 ∧
    aget? [(["D", "a"], (0 : Int)), (["D", "b"], 0)] ["D", "b"] = some 0 ∧
    (process_pending ⟨["D"], [], 2, false⟩ [(["D", "a"], 0), (["D", "b"], 0)]
        ⟨[["D", "a"], ["D", "Other"], ["D", "b"]], [["D"]]⟩ 5).err =
      some .mkdirBlocked ∧
    ["D", "b"] ∉ (process_pending ⟨["D"], [], 2, false⟩
        [(["D", "a"], 0), (["D", "b"], 0)]
        ⟨[["D", "a"], ["D", "Other"], ["D", "b"]], [["D"]]⟩ 5).toRemove := by
  decide

/-- C1 witness: the amended theorem applied at a concrete state — one
pending file `D/a` recorded at time 0, examined at time 1 with debounce 2:
it is not attempted, stays pending with timestamp 0, and stays on disk. -/
theorem C1_witness :
    ((process_pending ⟨["D"], [], 2, false⟩ [(["D", "a"], 0)]
        ⟨[["D", "a"]], [["D"]]⟩ 1).err = none →
      (["D", "a"] ∈ (process_pending ⟨["D"], [], 2, false⟩ [(["D", "a"], 0)]
          ⟨[["D", "a"]], [["D"]]⟩ 1).toRemove ↔
        (⟨["D"], [], 2, false⟩ : Handler).debounce ≤ 1 - 0)) ∧
    ((1 : Int) - 0 < (⟨["D"], [], 2, false⟩ : Handler).debounce →
      ["D", "a"] ∉ (process_pending ⟨["D"], [], 2, false⟩ [(["D", "a"], 0)]
          ⟨[["D", "a"]], [["D"]]⟩ 1).toRemove ∧
      aget? (process_pending ⟨["D"], [], 2, false⟩ [(["D", "a"], 0)]
          ⟨[["D", "a"]], [["D"]]⟩ 1).pending ["D", "a"] = some 0 ∧
      (["D", "a"] ∈ (FS.mk [["D", "a"]] [["D"]]).files →
        ["D", "a"] ∈ (process_pending ⟨["D"], [], 2, false⟩ [(["D", "a"], 0)]
            ⟨[["D", "a"]], [["D"]]⟩ 1).fs.files)) :=
  C1_tick_attempts_iff_stabilized ⟨["D"], [], 2, false⟩ [(["D", "a"], 0)]
    ⟨[["D", "a"]], [["D"]]⟩ 1 ["D", "a"] 0 (by decide) (by decide)

/-- C3 (corrected).  When a tick completes without a move error, every
entry past the debounce window is removed from the pending dict —
including entries whose file vanished, which are skipped silently: the
loop body classifies a stabilized missing file as `missing` (no move, no
error), and a whole tick over such a single entry removes it, leaves the
filesystem untouched, fires no callback and raises nothing.  When a
`move_file` call raises, however, the tick aborts before its clean-up
loop, so no entry at all is removed (the original claim's "removed
regardless of outcome" fails: see the counterexample). -/
theorem C3_stabilized_removed_unless_error (h : Handler) (pend : Pend) (fs : FS)
    (now : Int) :
    ((process_pending h pend fs now).err = none →
      ∀ p t, (p, t) ∈ pend → h.debounce ≤ now - t →
        aget? (process_pending h pend fs now).pending p = none) ∧
    ((process_pending h pend fs now).err ≠ none →
      (process_pending h pend fs now).pending = pend) ∧
    (∀ (fs' : FS) (p : PathT) (t : Int), h.debounce ≤ now - t →
      ¬pathExists fs' p → tickStep h fs' now p t = .missing) ∧
    (∀ p t, h.debounce ≤ now - t → ¬pathExists fs p →
      process_pending h [(p, t)] fs now = ⟨[], fs, [p], [], none⟩) := by
  refine ⟨?_, ?_, ?_, ?_⟩
  · intro he p t hmem hst
    exact process_pending_lookup_removed he (process_pending_complete he hmem hst)
  · exact process_pending_of_err
  · intro fs' p t hst hex
    exact tickStep_of_missing hst hex
  · intro p t hst hex
    rw [process_pending, tickGo_cons_missing (tickStep_of_missing hst hex)]
    simp [tickGo, adel, List.filter]

/-- C3 counterexample.  One stabilized pending entry `D/a` (time 0,
examined at time 5, debounce 2); the file `D/Other` blocks the category
`mkdir`, `move_file` raises, and the entry is NOT removed from the
pending dict — refuting "removed regardless of the outcome, including
when move_file fails with an error". -/
theorem C3_counterexample :
    (2 : Int) ≤ 5 - 0 ∧
    (process_pending ⟨["D"], [], 2, false⟩ [(["D", "a"], 0)]
        ⟨[["D", "a"], ["D", "Other"]], [["D"]]⟩ 5).err = some .mkdirBlocked ∧
    aget? (process_pending ⟨["D"], [], 2, false⟩ [(["D", "a"], 0)]
        ⟨[["D", "a"], ["D", "Other"]], [["D"]]⟩ 5).pending ["D", "a"] = some 0 := by
  decide

/-- C3 witness: the amended theorem applied concretely — a stabilized
entry whose file is gone is skipped silently and removed. -/
theorem C3_witness :
    process_pending ⟨["D"], [], 2, false⟩ [(["D", "gone"], 0)] ⟨[], [["D"]]⟩ 5 =
      ⟨[], ⟨[], [["D"]]⟩, [["D", "gone"]], [], none⟩ :=
  (C3_stabilized_removed_unless_error ⟨["D"], [], 2, false⟩ [(["D", "gone"], 0)]
    ⟨[], [["D"]]⟩ 5).2.2.2 ["D", "gone"] 0 (by decide) (by decide)

/-- C2 (confirmed).  When `move_file`'s shared move steps succeed on an
existing file whose initial destination `watchTarget/category/baseName` is
occupied, the chosen destination is `stem_k ext` for the least `k ≥ 1`
whose candidate is unoccupied — every smaller candidate is occupied, the
chosen one is free (no overwrite), the moved file appears there, and every
other existing file is left in place.  The witness replays the spec's
`a.txt` scenario: `Other/a.txt` occupied, the second file lands at
`Other/a_1.txt` and both are present. -/
theorem C2_collision_suffix_probe (wf : PathT) (em : List (String × String))
    (fs : FS) (path : PathT) (fs' : FS) (dest : PathT) (cat : String)
    (hfile : path ∈ fs.files)
    (hok : moveCore wf em fs path = .ok (fs', dest, cat))
    (hocc : pathExists fs (pathJoin (pathJoin wf cat) (pathName path))) :
    (∃ k, 1 ≤ k ∧
      dest = pathJoin (pathJoin wf cat)
        (collisionName (pyStem (pathName path)) k (strLower (pySuffix (pathName path)))) ∧
      ¬pathExists fs dest ∧
      ∀ j, 1 ≤ j → j < k →
        pathExists fs (pathJoin (pathJoin wf cat)
          (collisionName (pyStem (pathName path)) j (strLower (pySuffix (pathName path)))))) ∧
    dest ∈ fs'.files ∧
    (∀ q, q ∈ fs.files → q ≠ path → q ∈ fs'.files) := by
  obtain ⟨hcat, fs1, hmk, hres, hfs'⟩ := moveCore_ok hok
  have htrans : ∀ n : String, pathExists fs1 (pathJoin (pathJoin wf cat) n) ↔
      pathExists fs (pathJoin (pathJoin wf cat) n) := by
    intro n
    exact mkdirExistOk_exists_iff hmk (pathJoin_ne _ _)
  have hocc1 : pathExists fs1 (pathJoin (pathJoin wf cat) (pathName path)) :=
    (htrans _).2 hocc
  obtain ⟨k, hk1, hk2, hk3, hk4⟩ := resolveDest_of_occupied hocc1 hres
  refine ⟨⟨k, hk1, hk2, ?_, ?_⟩, ?_, ?_⟩
  · rw [hk2] at hk3 ⊢
    exact fun hc => hk3 ((htrans _).2 hc)
  · intro j hj1 hj2
    exact (htrans _).1 (hk4 j hj1 hj2)
  · rw [hfs']
    exact moveFS_files_dst (by rw [mkdirExistOk_files hmk]; exact hfile)
  · intro q hq hne
    rw [hfs']
    exact moveFS_files_mem (by rw [mkdirExistOk_files hmk]; exact hq) hne

/-- C2 witness: the spec's two-`a.txt` scenario, instantiating the
theorem: the destination is the first free candidate `Other/a_1.txt`, it
is occupied by no existing entry, it holds the moved file afterwards, and
the previously moved `Other/a.txt` is untouched. -/
theorem C2_witness :
    (∃ k, 1 ≤ k ∧
      (["D", "Other", "a_1.txt"] : PathT) = pathJoin (pathJoin ["D"] "Other")
        (collisionName (pyStem (pathName ["D", "a.txt"])) k
          (strLower (pySuffix (pathName ["D", "a.txt"])))) ∧
      ¬pathExists ⟨[["D", "a.txt"], ["D", "Other", "a.txt"]], [["D"], ["D", "Other"]]⟩
        ["D", "Other", "a_1.txt"] ∧
      ∀ j, 1 ≤ j → j < k →
        pathExists ⟨[["D", "a.txt"], ["D", "Other", "a.txt"]], [["D"], ["D", "Other"]]⟩
          (pathJoin (pathJoin ["D"] "Other")
            (collisionName (pyStem (pathName ["D", "a.txt"])) j
              (strLower (pySuffix (pathName ["D", "a.txt"])))))) ∧
    (["D", "Other", "a_1.txt"] : PathT) ∈
      (FS.mk [["D", "Other", "a_1.txt"], ["D", "Other", "a.txt"]]
        [["D"], ["D", "Other"]]).files ∧
    (∀ q, q ∈ (FS.mk [["D", "a.txt"], ["D", "Other", "a.txt"]]
        [["D"], ["D", "Other"]]).files → q ≠ ["D", "a.txt"] →
      q ∈ (FS.mk [["D", "Other", "a_1.txt"], ["D", "Other", "a.txt"]]
        [["D"], ["D", "Other"]]).files) :=
  C2_collision_suffix_probe ["D"] []
    ⟨[["D", "a.txt"], ["D", "Other", "a.txt"]], [["D"], ["D", "Other"]]⟩
    ["D", "a.txt"]
    ⟨[["D", "Other", "a_1.txt"], ["D", "Other", "a.txt"]], [["D"], ["D", "Other"]]⟩
    ["D", "Other", "a_1.txt"] "Other" (by decide) (by decide) (by decide)

/-- C5 (corrected).  When `move_file` succeeds it selects the category by
looking up the lower-cased extension with literal fallback `"Other"`,
places the destination directly inside `watchTarget/category`, moves the
file there, and invokes the callback exactly once when one is registered
(and not otherwise) — but its Python return value is `None`, not the pair
`(destPath, category)` (the function body has no return statement), and
on a `mkdir` failure nothing is moved and no callback fires (see the
counterexample). -/
theorem C5_move_file_contract (h : Handler) (fs : FS) (path : PathT) (out : MoveOut)
    (hok : move_file h fs path = .ok out) :
    out.category = agetD h.ext_map (strLower (pySuffix (pathName path))) "Other" ∧
    pathParent out.dest = pathJoin h.watch_folder out.category ∧
    out.calls = (if h.hasCallback then [(out.dest, out.category)] else []) ∧
    out.ret = none ∧
    (path ∈ fs.files → out.dest ∈ out.fs.files) := by
  obtain ⟨hcore, hcalls, hret⟩ := move_file_ok hok
  obtain ⟨hcat, fs1, hmk, hres, hfs'⟩ := moveCore_ok hcore
  refine ⟨hcat, ?_, hcalls, hret, ?_⟩
  · exact resolveDest_parent hres
  · intro hf
    rw [hfs']
    exact moveFS_files_dst (by rw [mkdirExistOk_files hmk]; exact hf)

/-- C5 counterexample.  First conjunct: a successful move of `D/x.pdf`
returns `None` (`ret = none`), not the pair `(destPath, category)` the
claim states.  Second conjunct: with a file named `D/Other` present,
`move_file` on the extensionless `D/a` raises instead of moving, so the
claim's unconditional "for every input path ... moves the file and
invokes the callback" also fails. -/
theorem C5_counterexample :
    (move_file ⟨["D"], [], 2, true⟩ ⟨[["D", "x.pdf"]], [["D"]]⟩ ["D", "x.pdf"]).map
        (fun o => o.ret) = .ok none ∧
    move_file ⟨["D"], [], 2, true⟩ ⟨[["D", "a"], ["D", "Other"]], [["D"]]⟩ ["D", "a"] =
      .error .mkdirBlocked := by
  decide

/-- C5 witness: the amended contract instantiated on the successful
`D/x.pdf` move with a registered callback. -/
theorem C5_witness :
    (MoveOut.mk ⟨[["D", "Other", "x.pdf"]], [["D", "Other"], ["D"]]⟩
        ["D", "Other", "x.pdf"] "Other" [(["D", "Other", "x.pdf"], "Other")]
        none).category =
      agetD [] (strLower (pySuffix (pathName ["D", "x.pdf"]))) "Other" ∧
    pathParent (MoveOut.mk ⟨[["D", "Other", "x.pdf"]], [["D", "Other"], ["D"]]⟩
        ["D", "Other", "x.pdf"] "Other" [(["D", "Other", "x.pdf"], "Other")]
        none).dest =
      pathJoin ["D"] (MoveOut.mk ⟨[["D", "Other", "x.pdf"]], [["D", "Other"], ["D"]]⟩
        ["D", "Other", "x.pdf"] "Other" [(["D", "Other", "x.pdf"], "Other")]
        none).category ∧
    (MoveOut.mk ⟨[["D", "Other", "x.pdf"]], [["D", "Other"], ["D"]]⟩
        ["D", "Other", "x.pdf"] "Other" [(["D", "Other", "x.pdf"], "Other")]
        none).calls =
      (if (Handler.mk ["D"] [] 2 true).hasCallback then
        [((MoveOut.mk ⟨[["D", "Other", "x.pdf"]], [["D", "Other"], ["D"]]⟩
            ["D", "Other", "x.pdf"] "Other" [(["D", "Other", "x.pdf"], "Other")]
            none).dest,
          (MoveOut.mk ⟨[["D", "Other", "x.pdf"]], [["D", "Other"], ["D"]]⟩
            ["D", "Other", "x.pdf"] "Other" [(["D", "Other", "x.pdf"], "Other")]
            none).category)]
       else []) ∧
    (MoveOut.mk ⟨[["D", "Other", "x.pdf"]], [["D", "Other"], ["D"]]⟩
        ["D", "Other", "x.pdf"] "Other" [(["D", "Other", "x.pdf"], "Other")]
        none).ret = none ∧
    ((["D", "x.pdf"] : PathT) ∈ (FS.mk [["D", "x.pdf"]] [["D"]]).files →
      (MoveOut.mk ⟨[["D", "Other", "x.pdf"]], [["D", "Other"], ["D"]]⟩
          ["D", "Other", "x.pdf"] "Other" [(["D", "Other", "x.pdf"], "Other")]
          none).dest ∈
        (MoveOut.mk ⟨[["D", "Other", "x.pdf"]], [["D", "Other"], ["D"]]⟩
          ["D", "Other", "x.pdf"] "Other" [(["D", "Other", "x.pdf"], "Other")]
          none).fs.files) :=
  C5_move_file_contract ⟨["D"], [], 2, true⟩ ⟨[["D", "x.pdf"]], [["D"]]⟩
    ["D", "x.pdf"]
    ⟨⟨[["D", "Other", "x.pdf"]], [["D", "Other"], ["D"]]⟩, ["D", "Other", "x.pdf"],
      "Other", [(["D", "Other", "x.pdf"], "Other")], none⟩ (by decide)

/-- C9 (confirmed).  Events whose `is_directory` flag is set are returned
unprocessed by both handlers: the pending dict is bit-for-bit unchanged,
so a directory is never inserted and never refreshed, whatever its path
and name. -/
theorem C9_directory_events_ignored (h : Handler) (pend : Pend) (p : PathT)
    (now : Int) :
    on_created h pend true p now = pend ∧ on_modified pend true p now = pend :=
  ⟨rfl, rfl⟩

/-- C10 (confirmed).  Every candidate the collision probe generates is
`stem ++ "_" ++ k ++ ext` with `ext` the lower-cased extension; concretely
a colliding `Report.PDF` is stored as `Report_1.pdf` (extension
lower-cased), a non-colliding `Report.PDF` keeps its base name exactly,
and a colliding extensionless `README` probes `README_1` with no trailing
dot. -/
theorem C10_candidate_names :
    (∀ (fs : FS) (folder : PathT) (stem ext : String) (c fuel : Nat) (d : PathT),
      findFree fs folder stem ext c fuel = some d →
      ∃ k, c ≤ k ∧ d = pathJoin folder (stem ++ "_" ++ toString k ++ ext)) ∧
    moveCore ["D"] []
        ⟨[["D", "Report.PDF"], ["D", "Other", "Report.PDF"]], [["D"], ["D", "Other"]]⟩
        ["D", "Report.PDF"] =
      .ok (⟨[["D", "Other", "Report_1.pdf"], ["D", "Other", "Report.PDF"]],
        [["D"], ["D", "Other"]]⟩, ["D", "Other", "Report_1.pdf"], "Other") ∧
    moveCore ["D"] [] ⟨[["D", "Report.PDF"]], [["D"], ["D", "Other"]]⟩
        ["D", "Report.PDF"] =
      .ok (⟨[["D", "Other", "Report.PDF"]], [["D"], ["D", "Other"]]⟩,
        ["D", "Other", "Report.PDF"], "Other") ∧
    moveCore ["D"] []
        ⟨[["D", "README"], ["D", "Other", "README"]], [["D"], ["D", "Other"]]⟩
        ["D", "README"] =
      .ok (⟨[["D", "Other", "README_1"], ["D", "Other", "README"]],
        [["D"], ["D", "Other"]]⟩, ["D", "Other", "README_1"], "Other") := by
  refine ⟨?_, by decide, by decide, by decide⟩
  intro fs folder stem ext c fuel d hff
  obtain ⟨k, hk1, hk2, -, -⟩ := findFree_spec fuel c d hff
  exact ⟨k, hk1, by rw [hk2]; rfl⟩

/-- C10 witness: the probe-shape clause instantiated on an empty
filesystem, producing `a_1.txt` from stem `a` and extension `.txt`. -/
theorem C10_witness :
    ∃ k, 1 ≤ k ∧
      (["D", "a_1.txt"] : PathT) = pathJoin ["D"] ("a" ++ "_" ++ toString k ++ ".txt") :=
  C10_candidate_names.1 ⟨[], []⟩ ["D"] "a" ".txt" 1 1 ["D", "a_1.txt"] (by decide)

theorem aget?_inner_fold (cat k : String) :
    ∀ (exts : List String) (acc : List (String × String)),
      aget? (exts.foldl (fun acc e => aset acc (strLower e) cat) acc) k =
        if exts.any (fun e => decide (strLower e = k)) then some cat
        else aget? acc k := by
  intro exts
  induction exts with
  | nil => intro acc; simp
  | cons e exts ih =>
    intro acc
    simp only [List.foldl_cons, ih, List.any_cons]
    by_cases he : strLower e = k
    · by_cases hany : exts.any (fun e => decide (strLower e = k)) = true
      · simp [he, hany]
      · simp [he, hany, aget?_aset_self]
    · rw [aget?_aset_ne _ _ _ _ (fun hk => he hk.symm)]
      simp [he]

theorem lastWins_inner_fold (cat k : String) :
    ∀ (exts : List String) (acc : Option String),
      exts.foldl (fun acc e => if strLower e = k then some cat else acc) acc =
        if exts.any (fun e => decide (strLower e = k)) then some cat else acc := by
  intro exts
  induction exts with
  | nil => intro acc; simp
  | cons e exts ih =>
    intro acc
    simp only [List.foldl_cons, ih, List.any_cons]
    by_cases he : strLower e = k
    · by_cases hany : exts.any (fun e => decide (strLower e = k)) = true <;>
        simp [he, hany]
    · simp [he]

theorem build_extension_map_lookup (k : String) :
    ∀ (categories : List (String × List String)) (acc : List (String × String))
      (sacc : Option String), aget? acc k = sacc →
      aget? (categories.foldl
        (fun acc ce => ce.2.foldl (fun acc e => aset acc (strLower e) ce.1) acc) acc) k =
      categories.foldl
        (fun acc ce => ce.2.foldl (fun acc e => if strLower e = k then some ce.1 else acc) acc)
        sacc := by
  intro categories
  induction categories with
  | nil => intro acc sacc h; simpa using h
  | cons ce cats ih =>
    intro acc sacc h
    simp only [List.foldl_cons]
    apply ih
    rw [aget?_inner_fold, lastWins_inner_fold, h]

/-- C8 (confirmed).  The empty category table yields the empty index, and
for every table and lookup key the built index returns the category of
the last `(category, extension)` pair in iteration order whose
lower-cased extension matches — later inserts overwrite earlier ones
(last-write-wins), exactly the spec-side `lastWinsSpec` reading.  The
function is a total fold: it raises nothing on any input of the expected
shape. -/
theorem C8_build_index_last_wins (categories : List (String × List String))
    (k dflt : String) :
    build_extension_map [] = [] ∧
    agetD (build_extension_map categories) k dflt =
      (lastWinsSpec categories k).getD dflt := by
  refine ⟨rfl, ?_⟩
  unfold agetD build_extension_map lastWinsSpec
  rw [build_extension_map_lookup k categories [] none rfl]

/-! ### Pending-membership lemmas for the handlers -/

theorem isPend_aset_self (pend : Pend) (p : PathT) (t : Int) :
    isPend (aset pend p t) p := by
  unfold isPend
  rw [aget?_aset_self]
  rfl

theorem isPend_aset_iff_ne {pend : Pend} {p q : PathT} {t : Int} (h : q ≠ p) :
    isPend (aset pend p t) q ↔ isPend pend q := by
  unfold isPend
  rw [aget?_aset_ne _ _ _ _ h]

theorem on_created_mem_src {h : Handler} {pend : Pend} {d : Bool} {q p : PathT}
    {t : Int} (hp : isPend (on_created h pend d q t) p) :
    isPend pend p ∨ (p = q ∧ eligible h p) := by
  unfold on_created at hp
  by_cases hd : d = true
  · rw [if_pos hd] at hp
    exact .inl hp
  · rw [if_neg hd] at hp
    by_cases hpar : pathParent q ≠ h.watch_folder
    · rw [if_pos hpar] at hp
      exact .inl hp
    · rw [if_neg hpar] at hp
      by_cases hhid : hiddenName (pathName q) = true
      · rw [if_pos hhid] at hp
        exact .inl hp
      · rw [if_neg hhid] at hp
        by_cases hpq : p = q
        · subst hpq
          exact .inr ⟨rfl, not_not.1 hpar, by simpa using hhid⟩
        · rw [isPend_aset_iff_ne hpq] at hp
          exact .inl hp

theorem on_created_mem_preserve {h : Handler} (pend : Pend) (d : Bool) (q p : PathT)
    (t : Int) (hp : isPend pend p) : isPend (on_created h pend d q t) p := by
  unfold on_created
  split
  · exact hp
  split
  · exact hp
  split
  · exact hp
  by_cases hpq : p = q
  · subst hpq
    exact isPend_aset_self pend p t
  · rw [isPend_aset_iff_ne hpq]
    exact hp

theorem on_created_eligible_insert {h : Handler} {pend : Pend} {p : PathT} {t : Int}
    (helig : eligible h p) : isPend (on_created h pend false p t) p := by
  obtain ⟨hpar, hhid⟩ := helig
  unfold on_created
  rw [if_neg (show ¬(false = true) by simp)]
  rw [if_neg (show ¬(pathParent p ≠ h.watch_folder) from fun hc => hc hpar)]
  rw [if_neg (show ¬(hiddenName (pathName p) = true) by rw [hhid]; simp)]
  exact isPend_aset_self pend p t

theorem on_created_not_eligible {h : Handler} (pend : Pend) (p : PathT) (t : Int)
    (hne : ¬eligible h p) : on_created h pend false p t = pend := by
  unfold eligible at hne
  unfold on_created
  rw [if_neg (show ¬(false = true) by simp)]
  by_cases hpar : pathParent p ≠ h.watch_folder
  · rw [if_pos hpar]
  · rw [if_neg hpar]
    by_cases hhid : hiddenName (pathName p) = true
    · rw [if_pos hhid]
    · exact absurd ⟨not_not.1 hpar, by simpa using hhid⟩ hne

theorem on_modified_mem_iff (pend : Pend) (d : Bool) (q p : PathT) (t : Int) :
    isPend (on_modified pend d q t) p ↔ isPend pend p := by
  unfold on_modified
  split
  · exact Iff.rfl
  split
  · by_cases hpq : p = q
    · subst hpq
      constructor
      · intro _; assumption
      · intro _; exact isPend_aset_self pend p t
    · exact isPend_aset_iff_ne hpq
  · exact Iff.rfl

theorem on_modified_refresh (pend : Pend) (p : PathT) (now : Int)
    (hp : isPend pend p) : aget? (on_modified pend false p now) p = some now := by
  unfold on_modified
  rw [if_neg (show ¬(false = true) by simp),
    if_pos (show (aget? pend p).isSome = true from hp)]
  exact aget?_aset_self pend p now

theorem process_pending_mem_src {h : Handler} {pend : Pend} {fs : FS} {now : Int}
    {p : PathT} (hp : isPend (process_pending h pend fs now).pending p) :
    isPend pend p := by
  by_cases herr : (process_pending h pend fs now).err = none
  · by_cases hrm : p ∈ (process_pending h pend fs now).toRemove
    · rw [isPend, process_pending_lookup_removed herr hrm] at hp
      exact absurd hp (by simp)
    · rwa [isPend, process_pending_lookup_not_removed hrm] at hp
  · rwa [process_pending_of_err herr] at hp

theorem process_pending_mem_iff (h : Handler) (pend : Pend) (fs : FS) (now : Int)
    (p : PathT) :
    isPend (process_pending h pend fs now).pending p ↔
      (isPend pend p ∧ ¬((process_pending h pend fs now).err = none ∧
        p ∈ (process_pending h pend fs now).toRemove)) := by
  constructor
  · intro hp
    refine ⟨process_pending_mem_src hp, ?_⟩
    rintro ⟨herr, hrm⟩
    rw [isPend, process_pending_lookup_removed herr hrm] at hp
    exact absurd hp (by simp)
  · rintro ⟨hp, hni⟩
    by_cases herr : (process_pending h pend fs now).err = none
    · by_cases hrm : p ∈ (process_pending h pend fs now).toRemove
      · exact absurd ⟨herr, hrm⟩ hni
      · rwa [isPend, process_pending_lookup_not_removed hrm]
    · rwa [process_pending_of_err herr]

theorem stepEv_eligible (h : Handler) (s : EngState) (e : Ev)
    (inv : ∀ p, isPend s.pending p → eligible h p) :
    ∀ p, isPend (stepEv h s e).pending p → eligible h p := by
  intro p hp
  cases e with
  | created d q t =>
    rcases on_created_mem_src hp with hmem | ⟨-, helig⟩
    · exact inv p hmem
    · exact helig
  | modified d q t => exact inv p ((on_modified_mem_iff s.pending d q p t).1 hp)
  | tick t => exact inv p (process_pending_mem_src hp)
  | fsExt f => exact inv p hp

theorem run_eligible (h : Handler) :
    ∀ (evs : List Ev) (s : EngState), (∀ p, isPend s.pending p → eligible h p) →
      ∀ p, isPend (run h s evs).pending p → eligible h p := by
  intro evs
  induction evs with
  | nil => intro s inv p hp; exact inv p hp
  | cons e evs ih =>
    intro s inv p hp
    simp only [run, List.foldl_cons] at hp
    exact ih (stepEv h s e) (stepEv_eligible h s e inv) p hp

/-- C4 (confirmed).  (1) Over every event trace from the empty pending
set, every pending path was recorded by an eligible creation: its parent
is exactly the watch folder and its name is not hidden.  (2) After a
non-directory creation event the path is pending iff it is eligible or
was already pending, and (3) an ineligible creation (subdirectory or
hidden name) leaves the pending dict unchanged.  (4) A modification event
never changes pending membership in either direction — in particular it
never adds a path — and (5) refreshes the timestamp of an
already-pending path to the event time.  (6) A tick removes exactly the
entries it both found stabilized and, the tick having completed without a
move error, actually popped; every other path's membership is
preserved. -/
theorem C4_pending_membership (h : Handler) :
    (∀ (fs0 : FS) (evs : List Ev) (p : PathT),
      isPend (run h ⟨[], fs0⟩ evs).pending p → eligible h p) ∧
    (∀ (pend : Pend) (p : PathT) (now : Int),
      isPend (on_created h pend false p now) p ↔ (eligible h p ∨ isPend pend p)) ∧
    (∀ (pend : Pend) (p : PathT) (now : Int),
      ¬eligible h p → on_created h pend false p now = pend) ∧
    (∀ (pend : Pend) (d : Bool) (q p : PathT) (now : Int),
      isPend (on_modified pend d q now) p ↔ isPend pend p) ∧
    (∀ (pend : Pend) (p : PathT) (now : Int),
      isPend pend p → aget? (on_modified pend false p now) p = some now) ∧
    (∀ (pend : Pend) (fs : FS) (now : Int) (p : PathT),
      isPend (process_pending h pend fs now).pending p ↔
        (isPend pend p ∧ ¬((process_pending h pend fs now).err = none ∧
          p ∈ (process_pending h pend fs now).toRemove))) := by
  refine ⟨?_, ?_, ?_, ?_, ?_, ?_⟩
  · intro fs0 evs p hp
    refine run_eligible h evs ⟨[], fs0⟩ ?_ p hp
    intro q hq
    exact absurd hq (by simp [isPend, aget?])
  · intro pend p now
    constructor
    · intro hp
      rcases on_created_mem_src hp with hmem | ⟨-, helig⟩
      · exact .inr hmem
      · exact .inl helig
    · rintro (helig | hmem)
      · exact on_created_eligible_insert helig
      · exact on_created_mem_preserve pend false p p now hmem
  · intro pend p now hne
    exact on_created_not_eligible pend p now hne
  · intro pend d q p now
    exact on_modified_mem_iff pend d q p now
  · intro pend p now hp
    exact on_modified_refresh pend p now hp
  · intro pend fs now p
    exact process_pending_mem_iff h pend fs now p

/-- C4 witness: the trace invariant applied to a concrete one-event trace
— after `on_created` of `D/a` inside watch folder `D`, the pending path
`D/a` is eligible: its parent is `D` and its name is not hidden. -/
theorem C4_witness : eligible ⟨["D"], [], 2, false⟩ ["D", "a"] :=
  (C4_pending_membership ⟨["D"], [], 2, false⟩).1 ⟨[], []⟩
    [.created false ["D", "a"] 0] ["D", "a"] (by decide)

/-! ### Interleaving lemmas for C6 -/

theorem okSeqB_refresh {d last u : Int} {rest : List RT}
    (h : okSeqB d last (.refresh u :: rest) = true) :
    last ≤ u ∧ u - last < d ∧ okSeqB d u rest = true := by
  simp only [okSeqB, Bool.and_eq_true, decide_eq_true_eq] at h
  exact ⟨h.1.1, h.1.2, h.2⟩

theorem okSeqB_tick {d last u : Int} {rest : List RT}
    (h : okSeqB d last (.tick u :: rest) = true) :
    last ≤ u ∧ (∃ u', headRefresh rest = some u' ∧ u ≤ u') ∧
      okSeqB d last rest = true := by
  simp only [okSeqB, Bool.and_eq_true, decide_eq_true_eq] at h
  refine ⟨h.1.1, ?_, h.2⟩
  have h2 := h.1.2
  rcases hhr : headRefresh rest with _ | u'
  · rw [hhr] at h2
    cases h2
  · rw [hhr] at h2
    simp only [decide_eq_true_eq] at h2
    exact ⟨u', rfl, h2⟩

theorem okSeqB_headRefresh_lt {d : Int} :
    ∀ {l : List RT} {last u' : Int}, okSeqB d last l = true →
      headRefresh l = some u' → u' - last < d := by
  intro l
  induction l with
  | nil => intro last u' _ hh; cases hh
  | cons e rest ih =>
    intro last u' hok hh
    cases e with
    | refresh u =>
      simp only [headRefresh, Option.some.injEq] at hh
      subst hh
      exact (okSeqB_refresh hok).2.1
    | tick u =>
      simp only [headRefresh] at hh
      exact ih (okSeqB_tick hok).2.2 hh

theorem tick_unstable_preserved {h : Handler} {pend : Pend} {fs : FS} {now : Int}
    {p : PathT} {t : Int}
    (hnd : (pend.map Prod.fst).Nodup)
    (hp : aget? pend p = some t)
    (hlt : now - t < h.debounce) :
    aget? (process_pending h pend fs now).pending p = some t ∧
    (p ∈ fs.files → p ∈ (process_pending h pend fs now).fs.files) ∧
    ((process_pending h pend fs now).pending.map Prod.fst).Nodup := by
  have huniq : ∀ t', (p, t') ∈ pend → t' = t := by
    intro t' ht'
    have h' := aget?_eq_some_of_mem_nodup hnd ht'
    rw [hp] at h'
    exact (Option.some.inj h').symm
  have hnotrm : p ∉ (process_pending h pend fs now).toRemove := by
    intro hrm
    obtain ⟨t', ht', hst⟩ := process_pending_toRemove_src hrm
    rw [huniq t' ht'] at hst
    omega
  refine ⟨?_, ?_, process_pending_keys_nodup hnd⟩
  · rw [process_pending_lookup_not_removed hnotrm, hp]
  · intro hf
    exact process_pending_files_preserved
      (fun t' ht' => by rw [huniq t' ht']; exact hlt) hf

theorem on_modified_keys_eq (pend : Pend) (p : PathT) (now : Int)
    (hp : (aget? pend p).isSome) :
    (on_modified pend false p now).map Prod.fst = pend.map Prod.fst := by
  unfold on_modified
  rw [if_neg (show ¬(false = true) by simp),
    if_pos (show (aget? pend p).isSome = true from hp)]
  exact keys_aset_of_isSome pend p now hp

/-- C6 (confirmed).  Take any engine state whose pending dict (with
duplicate-free keys) tracks `p` at timestamp `t0` while `p` exists on
disk, and any interleaving of modification events for `p` and ticks in
which times are nondecreasing, consecutive refreshes of `p` are separated
by less than the debounce window, and every tick happens no later than a
subsequent refresh.  Then after running the whole interleaving `p` is
still on disk in the watch folder and still pending: no tick in that
interval moved it — each tick observes quiet time strictly below the
window, skips the entry, and leaves the file in place. -/
theorem C6_refresh_prevents_move (h : Handler) (p : PathT) :
    ∀ (L : List RT) (s : EngState) (t0 : Int),
      (s.pending.map Prod.fst).Nodup →
      aget? s.pending p = some t0 →
      p ∈ s.fs.files →
      okSeqB h.debounce t0 L = true →
      p ∈ (runRT h p s L).fs.files ∧ isPend (runRT h p s L).pending p := by
  intro L
  induction L with
  | nil =>
    intro s t0 _ hp hf _
    exact ⟨hf, show (aget? s.pending p).isSome = true by rw [hp]; rfl⟩
  | cons e rest ih =>
    intro s t0 hnd hp hf hok
    cases e with
    | refresh u =>
      obtain ⟨-, -, h3⟩ := okSeqB_refresh hok
      simp only [runRT]
      refine ih ⟨on_modified s.pending false p u, s.fs⟩ u ?_ ?_ hf h3
      · rw [on_modified_keys_eq s.pending p u (by rw [hp]; rfl)]
        exact hnd
      · exact on_modified_refresh s.pending p u
          (show (aget? s.pending p).isSome = true by rw [hp]; rfl)
    | tick u =>
      obtain ⟨-, ⟨u', hhr, huu⟩, h3⟩ := okSeqB_tick hok
      have hgap : u' - t0 < h.debounce := okSeqB_headRefresh_lt h3 hhr
      have hlt : u - t0 < h.debounce := by omega
      obtain ⟨hp', hfpres, hnd'⟩ :=
        @tick_unstable_preserved h s.pending s.fs u p t0 hnd hp hlt
      simp only [runRT]
      exact ih _ t0 hnd' hp' (hfpres hf) h3

/-- C6 witness: the theorem applied to a concrete interleaving — `D/a`
pending at time 0 with debounce 2, refreshed at times 1 and 2 with ticks
at 1 and 2 in between: after the whole run the file is still in place and
still pending. -/
theorem C6_witness :
    ["D", "a"] ∈ (runRT ⟨["D"], [], 2, false⟩ ["D", "a"]
      ⟨[(["D", "a"], 0)], ⟨[["D", "a"]], [["D"]]⟩⟩
      [.tick 1, .refresh 1, .tick 2, .refresh 2]).fs.files ∧
    isPend (runRT ⟨["D"], [], 2, false⟩ ["D", "a"]
      ⟨[(["D", "a"], 0)], ⟨[["D", "a"]], [["D"]]⟩⟩
      [.tick 1, .refresh 1, .tick 2, .refresh 2]).pending ["D", "a"] :=
  C6_refresh_prevents_move ⟨["D"], [], 2, false⟩ ["D", "a"]
    [.tick 1, .refresh 1, .tick 2, .refresh 2]
    ⟨[(["D", "a"], 0)], ⟨[["D", "a"]], [["D"]]⟩⟩ 0
    (by decide) (by decide) (by decide) (by decide)

/-! ### Sweep-loop lemmas for C7 -/

theorem mkdirExistOk_cases {fs fs' : FS} {d : PathT}
    (h : mkdirExistOk fs d = .ok fs') :
    fs'.dirs = fs.dirs ∨ (fs'.dirs = d :: fs.dirs ∧ d ∉ fs.dirs ∧ d ∉ fs.files) := by
  unfold mkdirExistOk at h
  split at h
  · cases h
    exact .inl rfl
  · split at h
    · cases h
    · cases h
      exact .inr ⟨rfl, by assumption, by assumption⟩

theorem reorgGo_nil {wf : PathT} {em : List (String × String)} {hasCB : Bool}
    {fs : FS} {count : Nat} {calls : List (PathT × String)} :
    reorgGo wf em hasCB [] fs count calls = .ok ⟨fs, count, calls⟩ := rfl

theorem reorgGo_cons_skip {wf : PathT} {em : List (String × String)} {hasCB : Bool}
    {p : PathT} {rest : List PathT} {fs : FS} {count : Nat}
    {calls : List (PathT × String)}
    (hskip : p ∈ fs.dirs ∨ hiddenName (pathName p) = true) :
    reorgGo wf em hasCB (p :: rest) fs count calls =
      reorgGo wf em hasCB rest fs count calls := by
  simp only [reorgGo]
  rw [if_pos hskip]

theorem reorgGo_cons_move {wf : PathT} {em : List (String × String)} {hasCB : Bool}
    {p : PathT} {rest : List PathT} {fs fsN : FS} {count : Nat}
    {calls : List (PathT × String)} {dest : PathT} {cat : String}
    (hskip : ¬(p ∈ fs.dirs ∨ hiddenName (pathName p) = true))
    (hmc : moveCore wf em fs p = .ok (fsN, dest, cat)) :
    reorgGo wf em hasCB (p :: rest) fs count calls =
      reorgGo wf em hasCB rest fsN (count + 1)
        (calls ++ if hasCB then [(dest, cat)] else []) := by
  simp only [reorgGo]
  rw [if_neg hskip, hmc]

theorem reorgGo_cons_err {wf : PathT} {em : List (String × String)} {hasCB : Bool}
    {p : PathT} {rest : List PathT} {fs : FS} {count : Nat}
    {calls : List (PathT × String)} {e : MoveErr}
    (hskip : ¬(p ∈ fs.dirs ∨ hiddenName (pathName p) = true))
    (hmc : moveCore wf em fs p = .error e) :
    reorgGo wf em hasCB (p :: rest) fs count calls = .error e := by
  simp only [reorgGo]
  rw [if_neg hskip, hmc]

theorem reorgGo_spec (wf : PathT) (em : List (String × String)) (hasCB : Bool) :
    ∀ (entries : List PathT) (fs : FS) (count : Nat) (calls : List (PathT × String))
      (out : ReorgOut),
      fs.files.Nodup →
      (∀ q, q ∈ fs.files → q ∉ fs.dirs) →
      entries.Nodup →
      (∀ q, q ∈ entries → pathParent q = wf) →
      (∀ q, q ∈ entries →
        (q ∈ fs.files ∧ q ∉ fs.dirs) ∨ (q ∈ fs.dirs ∧ q ∉ fs.files)) →
      reorgGo wf em hasCB entries fs count calls = .ok out →
      (out.count = count +
        (entries.filter
          (fun q => decide (q ∈ fs.files) && !hiddenName (pathName q))).length) ∧
      (out.calls.length = calls.length +
        (if hasCB then (entries.filter
          (fun q => decide (q ∈ fs.files) && !hiddenName (pathName q))).length
         else 0)) ∧
      (∀ q, q ∈ fs.dirs → q ∈ out.fs.dirs) ∧
      (∀ q, q ∈ fs.files →
        (q ∉ entries ∨ hiddenName (pathName q) = true) → q ∈ out.fs.files) ∧
      (∀ q, pathParent q = wf → q ∉ fs.files → q ∉ out.fs.files) ∧
      (∀ q, q ∈ entries → q ∈ fs.files → hiddenName (pathName q) = false →
        q ∉ out.fs.files) := by
  intro entries
  induction entries with
  | nil =>
    intro fs count calls out _ _ _ _ _ hok
    rw [reorgGo_nil] at hok
    cases hok
    refine ⟨by simp, by simp, fun q hq => hq, fun q hq _ => hq,
      fun q _ hq => hq, fun q hq => absurd hq (List.not_mem_nil q)⟩
  | cons p rest ih =>
    intro fs count calls out hndf hdisj hnde hpar hpart hok
    have hpar_rest : ∀ q, q ∈ rest → pathParent q = wf :=
      fun q hq => hpar q (.tail _ hq)
    have hpnotrest : p ∉ rest := (List.nodup_cons.1 hnde).1
    by_cases hskip : p ∈ fs.dirs ∨ hiddenName (pathName p) = true
    · rw [reorgGo_cons_skip hskip] at hok
      have hpred : (decide (p ∈ fs.files) && !hiddenName (pathName p)) = false := by
        rcases hskip with hd | hh
        · rcases hpart p (.head _) with ⟨-, hnd'⟩ | ⟨-, hnf⟩
          · exact absurd hd hnd'
          · simp [hnf]
        · simp [hh]
      obtain ⟨c1, c2, c3, c4, c5, c6⟩ := ih fs count calls out hndf hdisj
        (List.Nodup.of_cons hnde) hpar_rest
        (fun q hq => hpart q (.tail _ hq)) hok
      refine ⟨?_, ?_, c3, ?_, c5, ?_⟩
      · rw [c1, List.filter_cons, hpred]
        simp
      · rw [c2, List.filter_cons, hpred]
        simp
      · intro q hq hor
        refine c4 q hq ?_
        rcases hor with hni | hh
        · exact .inl (fun hc => hni (.tail _ hc))
        · exact .inr hh
      · intro q hq hqf hqh
        cases hq with
        | head =>
          rcases hskip with hd | hh
          · rcases hpart p (.head _) with ⟨-, hnd'⟩ | ⟨-, hnf⟩
            · exact absurd hd hnd'
            · exact absurd hqf hnf
          · rw [hqh] at hh
            cases hh
        | tail _ hq => exact c6 q hq hqf hqh
    · have hpnd : p ∉ fs.dirs := fun hc => hskip (.inl hc)
      have hpnh : hiddenName (pathName p) = false := by
        rcases hb : hiddenName (pathName p) with _ | _
        · rfl
        · exact absurd (.inr hb) hskip
      have hpf : p ∈ fs.files := by
        rcases hpart p (.head _) with ⟨hf, -⟩ | ⟨hd, -⟩
        · exact hf
        · exact absurd hd hpnd
      cases hmc : moveCore wf em fs p with
      | error e =>
        rw [reorgGo_cons_err hskip hmc] at hok
        cases hok
      | ok trip =>
        obtain ⟨fsN, dest, cat⟩ := trip
        rw [reorgGo_cons_move hskip hmc] at hok
        obtain ⟨hcat, fs1, hmk, hres, hfsN⟩ := moveCore_ok hmc
        have hfiles1 : fs1.files = fs.files := mkdirExistOk_files hmk
        have hdest_ne : ¬pathExists fs1 dest := resolveDest_not_exists hres
        have hdnf : dest ∉ fs1.files := fun hc => hdest_ne (.inl hc)
        have hdnd : dest ∉ fs1.dirs := fun hc => hdest_ne (.inr hc)
        have hdest_par : pathParent dest = pathJoin wf cat := resolveDest_parent hres
        have hpf1 : p ∈ fs1.files := by rw [hfiles1]; exact hpf
        have hfilesN : fsN.files = dest :: fs1.files.erase p := by
          rw [hfsN]
          unfold moveFS
          rw [if_pos hpf1]
        have hdirsN : fsN.dirs = fs1.dirs := by
          rw [hfsN]
          unfold moveFS
          rw [if_pos hpf1]
        have hndf1 : fs1.files.Nodup := by rw [hfiles1]; exact hndf
        have hndfN : fsN.files.Nodup := by
          rw [hfilesN]
          exact List.Nodup.cons (fun hc => hdnf (List.erase_subset _ _ hc))
            (hndf1.erase p)
        have hmemN : ∀ q, q ∈ fs.files → q ≠ p → q ∈ fsN.files := by
          intro q hq hne
          rw [hfilesN]
          exact .tail _ ((List.mem_erase_of_ne hne).2 (by rw [hfiles1]; exact hq))
        have hnew_dir_not_file : ∀ q, q ∈ fs.files → q ∉ fs1.dirs := by
          intro q hq hq1
          rcases mkdirExistOk_cases hmk with hd | ⟨hd, -, hnf⟩
          · rw [hd] at hq1
            exact hdisj q hq hq1
          · rw [hd] at hq1
            cases hq1 with
            | head => exact hnf hq
            | tail _ hq1 => exact hdisj q hq hq1
        have hdirnotN : ∀ q, q ∈ fs.dirs → q ∉ fs.files → q ∉ fsN.files := by
          intro q hqd hqnf hc
          rw [hfilesN] at hc
          cases hc with
          | head => exact hdnd (mkdirExistOk_dirs_mem hmk hqd)
          | tail _ hc =>
            have := List.mem_of_mem_erase hc
            rw [hfiles1] at this
            exact hqnf this
        have hdisjN : ∀ q, q ∈ fsN.files → q ∉ fsN.dirs := by
          intro q hq
          rw [hfilesN] at hq
          rw [hdirsN]
          cases hq with
          | head => exact hdnd
          | tail _ hq =>
            have hq' := List.mem_of_mem_erase hq
            rw [hfiles1] at hq'
            exact hnew_dir_not_file q hq'
        have hpartN : ∀ q, q ∈ rest →
            (q ∈ fsN.files ∧ q ∉ fsN.dirs) ∨ (q ∈ fsN.dirs ∧ q ∉ fsN.files) := by
          intro q hq
          have hqne : q ≠ p := fun hc => hpnotrest (hc ▸ hq)
          rcases hpart q (.tail _ hq) with ⟨hqf, -⟩ | ⟨hqd, hqnf⟩
          · exact .inl ⟨hmemN q hqf hqne, hdisjN _ (hmemN q hqf hqne)⟩
          · refine .inr ⟨?_, hdirnotN q hqd hqnf⟩
            rw [hdirsN]
            exact mkdirExistOk_dirs_mem hmk hqd
        have hfilter_eq :
            rest.filter
              (fun q => decide (q ∈ fsN.files) && !hiddenName (pathName q)) =
            rest.filter
              (fun q => decide (q ∈ fs.files) && !hiddenName (pathName q)) := by
          refine List.filter_congr ?_
          intro q hq
          have hqne : q ≠ p := fun hc => hpnotrest (hc ▸ hq)
          rcases hpart q (.tail _ hq) with ⟨hqf, -⟩ | ⟨hqd, hqnf⟩
          · rw [decide_eq_true (hmemN q hqf hqne), decide_eq_true hqf]
          · rw [decide_eq_false (hdirnotN q hqd hqnf), decide_eq_false hqnf]
        obtain ⟨c1, c2, c3, c4, c5, c6⟩ := ih fsN (count + 1)
          (calls ++ if hasCB then [(dest, cat)] else []) out hndfN hdisjN
          (List.Nodup.of_cons hnde) hpar_rest hpartN hok
        have hpredp : (decide (p ∈ fs.files) && !hiddenName (pathName p)) = true := by
          rw [decide_eq_true hpf]
          simp [hpnh]
        refine ⟨?_, ?_, ?_, ?_, ?_, ?_⟩
        · rw [c1, hfilter_eq, List.filter_cons, hpredp]
          simp only [if_true, List.length_cons]
          omega
        · rw [c2, hfilter_eq, List.filter_cons, hpredp]
          cases hasCB with
          | false => simp
          | true =>
            simp only [if_true, List.length_cons, List.length_append,
              List.length_cons, List.length_nil]
            omega
        · intro q hq
          refine c3 q ?_
          rw [hdirsN]
          exact mkdirExistOk_dirs_mem hmk hq
        · intro q hq hor
          have hqne : q ≠ p := by
            rcases hor with hni | hh
            · intro hc
              exact hni (by rw [hc]; exact .head _)
            · intro hc
              rw [hc, hpnh] at hh
              cases hh
          refine c4 q (hmemN q hq hqne) ?_
          rcases hor with hni | hh
          · exact .inl (fun hc => hni (.tail _ hc))
          · exact .inr hh
        · intro q hqpar hqnf
          refine c5 q hqpar ?_
          intro hc
          rw [hfilesN] at hc
          cases hc with
          | head =>
            rw [hdest_par] at hqpar
            exact pathJoin_ne wf cat hqpar
          | tail _ hc =>
            have := List.mem_of_mem_erase hc
            rw [hfiles1] at this
            exact hqnf this
        · intro q hq hqf hqh
          cases hq with
          | head =>
            refine c5 p (hpar p (.head _)) ?_
            intro hc
            rw [hfilesN] at hc
            cases hc with
            | head => exact hdnf hpf1
            | tail _ hc => exact hndf1.not_mem_erase hc
          | tail _ hq =>
            exact c6 q hq (hmemN q hqf (fun hc => hpnotrest (hc ▸ hq))) hqh

/-- C7 (corrected).  When `reorganize_all` completes without a move error
it returns exactly the number of non-directory, non-hidden entries
directly inside the watch folder, fires the callback once per moved file
(and never when no callback is registered), leaves every directory in
place, leaves every hidden file and every file outside the watch-folder
root untouched, and removes every eligible file from the root (each was
moved into its category folder).  The original unconditional claim fails:
a move error — e.g. an eligible file whose own name blocks its category
`mkdir` — aborts the sweep with the exception and no count is returned
(see the counterexample). -/
theorem C7_reorganize_all_sweep (wf : PathT) (em : List (String × String))
    (hasCB : Bool) (fs : FS) (out : ReorgOut)
    (hndf : fs.files.Nodup) (hndd : fs.dirs.Nodup)
    (hdisj : ∀ q, q ∈ fs.files → q ∉ fs.dirs)
    (hok : reorganize_all wf em hasCB fs = .ok out) :
    out.count = (eligibleEntries fs wf).length ∧
    out.calls.length = (if hasCB then (eligibleEntries fs wf).length else 0) ∧
    (∀ q, q ∈ fs.dirs → q ∈ out.fs.dirs) ∧
    (∀ q, q ∈ fs.files → hiddenName (pathName q) = true → q ∈ out.fs.files) ∧
    (∀ q, q ∈ fs.files → pathParent q ≠ wf → q ∈ out.fs.files) ∧
    (∀ q, q ∈ eligibleEntries fs wf → q ∉ out.fs.files) := by
  unfold reorganize_all at hok
  have hnd_entries : (iterdir fs wf).Nodup := by
    refine List.Nodup.append (hndf.filter _) (hndd.filter _) ?_
    intro q hq1 hq2
    exact hdisj q (List.mem_filter.1 hq1).1 (List.mem_filter.1 hq2).1
  have hpar_entries : ∀ q, q ∈ iterdir fs wf → pathParent q = wf := by
    intro q hq
    rcases List.mem_append.1 hq with hq | hq
    · have := (List.mem_filter.1 hq).2
      simpa using this
    · have := (List.mem_filter.1 hq).2
      simpa using this
  have hpart_entries : ∀ q, q ∈ iterdir fs wf →
      (q ∈ fs.files ∧ q ∉ fs.dirs) ∨ (q ∈ fs.dirs ∧ q ∉ fs.files) := by
    intro q hq
    rcases List.mem_append.1 hq with hq | hq
    · have hf := (List.mem_filter.1 hq).1
      exact .inl ⟨hf, hdisj q hf⟩
    · have hd := (List.mem_filter.1 hq).1
      exact .inr ⟨hd, fun hc => hdisj q hc hd⟩
  have hfeq : (iterdir fs wf).filter
      (fun q => decide (q ∈ fs.files) && !hiddenName (pathName q)) =
      eligibleEntries fs wf := by
    unfold iterdir eligibleEntries
    rw [List.filter_append]
    have h1 : (fs.dirs.filter (fun p => decide (pathParent p = wf))).filter
        (fun q => decide (q ∈ fs.files) && !hiddenName (pathName q)) = [] := by
      rw [List.filter_eq_nil_iff]
      intro q hq
      have hqd := (List.mem_filter.1 hq).1
      simp only [Bool.and_eq_true, decide_eq_true_eq, not_and]
      intro hqf
      exact absurd hqd (hdisj q hqf)
    rw [h1, List.append_nil, List.filter_filter]
    refine List.filter_congr ?_
    intro q hq
    simp [decide_eq_true hq, Bool.and_comm]
  obtain ⟨c1, c2, c3, c4, c5, c6⟩ := reorgGo_spec wf em hasCB (iterdir fs wf)
    fs 0 [] out hndf hdisj hnd_entries hpar_entries hpart_entries hok
  refine ⟨?_, ?_, c3, ?_, ?_, ?_⟩
  · rw [c1, hfeq]
    simp
  · rw [c2, hfeq]
    simp
  · intro q hq hh
    exact c4 q hq (.inr hh)
  · intro q hq hpar'
    exact c4 q hq (.inl (fun hc => hpar' (hpar_entries q hc)))
  · intro q hq
    have hq' := List.mem_filter.1 hq
    have hqf := hq'.1
    have hq2 := hq'.2
    simp only [Bool.and_eq_true, decide_eq_true_eq, Bool.not_eq_true'] at hq2
    refine c6 q ?_ hqf hq2.2
    exact List.mem_append.2 (.inl (List.mem_filter.2 ⟨hqf, by
      simpa using hq2.1⟩))

/-- C7 counterexample.  A watch folder containing the single eligible
file `D/Other` (non-directory, non-hidden, so N = 1): the sweep's own
`mkdir` of the `Other` category folder hits that file and raises
`FileExistsError`, so `reorganize_all` aborts with the exception instead
of returning 1 — refuting "on a folder with N eligible files ... it
returns N". -/
theorem C7_counterexample :
    (eligibleEntries ⟨[["D", "Other"]], [["D"]]⟩ ["D"]).length = 1 ∧
    reorganize_all ["D"] [] true ⟨[["D", "Other"]], [["D"]]⟩ =
      .error .mkdirBlocked := by
  decide

/-- C7 witness: the amended theorem applied to a concrete sweep — watch
folder `D` holding eligible `photo.JPG` and `notes`, hidden `.DS_Store`,
and directory `sub`: the run returns 2, calls back twice, keeps the
directories and the hidden file, and clears both eligible files from the
root. -/
theorem C7_witness :
    (ReorgOut.mk ⟨[["D", "Other", "notes"], ["D", "Images", "photo.JPG"],
        ["D", ".DS_Store"]],
      [["D", "Other"], ["D", "Images"], ["D"], ["D", "sub"]]⟩ 2
      [(["D", "Images", "photo.JPG"], "Images"),
       (["D", "Other", "notes"], "Other")]).count =
      (eligibleEntries ⟨[["D", "photo.JPG"], ["D", ".DS_Store"], ["D", "notes"]],
        [["D"], ["D", "sub"]]⟩ ["D"]).length ∧
    (ReorgOut.mk ⟨[["D", "Other", "notes"], ["D", "Images", "photo.JPG"],
        ["D", ".DS_Store"]],
      [["D", "Other"], ["D", "Images"], ["D"], ["D", "sub"]]⟩ 2
      [(["D", "Images", "photo.JPG"], "Images"),
       (["D", "Other", "notes"], "Other")]).calls.length =
      (if true then (eligibleEntries ⟨[["D", "photo.JPG"], ["D", ".DS_Store"],
        ["D", "notes"]], [["D"], ["D", "sub"]]⟩ ["D"]).length else 0) ∧
    (∀ q, q ∈ (FS.mk [["D", "photo.JPG"], ["D", ".DS_Store"], ["D", "notes"]]
        [["D"], ["D", "sub"]]).dirs →
      q ∈ (ReorgOut.mk ⟨[["D", "Other", "notes"], ["D", "Images", "photo.JPG"],
          ["D", ".DS_Store"]],
        [["D", "Other"], ["D", "Images"], ["D"], ["D", "sub"]]⟩ 2
        [(["D", "Images", "photo.JPG"], "Images"),
         (["D", "Other", "notes"], "Other")]).fs.dirs) ∧
    (∀ q, q ∈ (FS.mk [["D", "photo.JPG"], ["D", ".DS_Store"], ["D", "notes"]]
        [["D"], ["D", "sub"]]).files → hiddenName (pathName q) = true →
      q ∈ (ReorgOut.mk ⟨[["D", "Other", "notes"], ["D", "Images", "photo.JPG"],
          ["D", ".DS_Store"]],
        [["D", "Other"], ["D", "Images"], ["D"], ["D", "sub"]]⟩ 2
        [(["D", "Images", "photo.JPG"], "Images"),
         (["D", "Other", "notes"], "Other")]).fs.files) ∧
    (∀ q, q ∈ (FS.mk [["D", "photo.JPG"], ["D", ".DS_Store"], ["D", "notes"]]
        [["D"], ["D", "sub"]]).files → pathParent q ≠ ["D"] →
      q ∈ (ReorgOut.mk ⟨[["D", "Other", "notes"], ["D", "Images", "photo.JPG"],
          ["D", ".DS_Store"]],
        [["D", "Other"], ["D", "Images"], ["D"], ["D", "sub"]]⟩ 2
        [(["D", "Images", "photo.JPG"], "Images"),
         (["D", "Other", "notes"], "Other")]).fs.files) ∧
    (∀ q, q ∈ eligibleEntries ⟨[["D", "photo.JPG"], ["D", ".DS_Store"],
        ["D", "notes"]], [["D"], ["D", "sub"]]⟩ ["D"] →
      q ∉ (ReorgOut.mk ⟨[["D", "Other", "notes"], ["D", "Images", "photo.JPG"],
          ["D", ".DS_Store"]],
        [["D", "Other"], ["D", "Images"], ["D"], ["D", "sub"]]⟩ 2
        [(["D", "Images", "photo.JPG"], "Images"),
         (["D", "Other", "notes"], "Other")]).fs.files) :=
  C7_reorganize_all_sweep ["D"] [(".jpg", "Images")] true
    ⟨[["D", "photo.JPG"], ["D", ".DS_Store"], ["D", "notes"]], [["D"], ["D", "sub"]]⟩
    ⟨⟨[["D", "Other", "notes"], ["D", "Images", "photo.JPG"], ["D", ".DS_Store"]],
      [["D", "Other"], ["D", "Images"], ["D"], ["D", "sub"]]⟩, 2,
      [(["D", "Images", "photo.JPG"], "Images"), (["D", "Other", "notes"], "Other")]⟩
    (by decide) (by decide) (by decide) (by decide)

end Boop